import Mathlib

/-!
# Verification of the wordle-minimax solver (`wordle.py`)

Shallow embedding of the core of the solver: the feedback evaluator
`eval_guess`, the legality checker `is_legal_guess`, the partitioner
(`get_hardest_response` / `get_candidates`), the cardinality ranking
`get_cardinalities`, the minimax selector and the round loop of `main`.

Words and feedback strings are modelled as `List Char`; Python exceptions
are modelled with `Except WErr`; Python `defaultdict` counters are modelled
as functions `Char → Nat`; insertion-ordered Python `dict`s are modelled as
association lists; Python's stable `list.sort(key=...)` is modelled by
`List.insertionSort` (a stable sort) on the decidable key order.
-/

namespace WordleMinimax

/-- Errors raised by the Python code: the two explicit `Exception`s about
mismatched lengths, the `IndexError` a list subscript out of range raises,
the invalid-feedback-symbol `Exception` of `is_legal_guess`, a `KeyError`
for a plain-`dict` lookup miss, and the
`"Unexpected failure: no legal answers remaining"` exception of `main`. -/
inductive WErr where
  | lengthMismatch
  | indexError
  | invalidSymbol
  | keyError
  | noLegalAnswers
  deriving DecidableEq, Repr

abbrev Word := List Char
abbrev Feedback := List Char

/-- `seen[c] += 1` on a `defaultdict(int)` modelled as a function. -/
def bump (s : Char → Nat) (c : Char) : Char → Nat :=
  fun d => if d = c then s d + 1 else s d

/-- Python list assignment `l[i] = a`: in range it updates, out of range it
raises `IndexError` (modelled as `none`). -/
def pySet (l : List Char) (i : Nat) (a : Char) : Option (List Char) :=
  if i < l.length then some (l.set i a) else none

/-- First pass of `eval_guess` (`wordle.py` lines 215-218): walk `guess`
and `answer` in lockstep at index `i`, writing `'g'` into `result` at each
matching position and counting the hit letters in `seen`. -/
def pass1 : List Char → List Char → Nat → List Char → (Char → Nat) →
    Except WErr (List Char × (Char → Nat))
  | [], _, _, result, seen => .ok (result, seen)
  | _ :: _, [], _, _, _ => .error .indexError
  | g :: gs, a :: as, i, result, seen =>
    if g = a then
      match pySet result i 'g' with
      | none => .error .indexError
      | some result2 => pass1 gs as (i + 1) result2 (bump seen g)
    else pass1 gs as (i + 1) result seen

/-- Second pass of `eval_guess` (`wordle.py` lines 220-225): for each
position not already a hit, mark `'y'` when the guessed letter occurs in
the answer and its occurrences are not yet all consumed. -/
def pass2 (answer : List Char) (count : Char → Nat) :
    List Char → Nat → List Char → (Char → Nat) →
    Except WErr (List Char × (Char → Nat))
  | [], _, result, seen => .ok (result, seen)
  | g :: gs, i, result, seen =>
    match result.get? i with
    | none => .error .indexError
    | some r =>
      if r ≠ 'g' then
        if answer.contains g then
          if seen g < count g then
            match pySet result i 'y' with
            | none => .error .indexError
            | some result2 => pass2 answer count gs (i + 1) result2 (bump seen g)
          else pass2 answer count gs (i + 1) result seen
        else pass2 answer count gs (i + 1) result seen
      else pass2 answer count gs (i + 1) result seen

/-- `eval_guess` (`wordle.py` lines 191-227). The result buffer is
`["r"] * 5` exactly as in the source, independently of the input length. -/
def eval_guess (guess answer : List Char) : Except WErr (List Char) :=
  if guess.length ≠ answer.length then .error .lengthMismatch
  else
    match pass1 guess answer 0 (List.replicate 5 'r') (fun _ => 0) with
    | .error e => .error e
    | .ok (result1, seen1) =>
      match pass2 answer (fun c => answer.count c) guess 0 result1 seen1 with
      | .error e => .error e
      | .ok (result2, _) => .ok result2

/-- Loop body of `is_legal_guess` (`wordle.py` lines 272-287): `word` is
the full candidate word (for the `c in word` test), `ws` the suffix of
`word` aligned with the remaining `guess`/`response` suffixes, so that the
head of `ws` is `word[i]`. -/
def legalLoop (word : List Char) (count : Char → Nat) :
    (Char → Nat) → List Char → List Char → List Char → Except WErr Bool
  | _, [], _, _ => .ok true
  | seen, g :: gs, r :: rs, w :: ws =>
    if r = 'r' then
      if word.contains g then .ok false
      else legalLoop word count seen gs rs ws
    else if r = 'g' then
      if w ≠ g ∨ seen g = count g then .ok false
      else legalLoop word count (bump seen g) gs rs ws
    else if r = 'y' then
      if w = g ∨ seen g = count g then .ok false
      else legalLoop word count seen gs rs ws
    else .error .invalidSymbol
  | _, _ :: _, _, _ => .error .indexError

/-- `is_legal_guess` (`wordle.py` lines 248-289). -/
def is_legal_guess (word guess response : List Char) : Except WErr Bool :=
  if word.length ≠ guess.length then .error .lengthMismatch
  else if guess.length ≠ response.length then .error .lengthMismatch
  else legalLoop word (fun c => word.count c) (fun _ => 0) guess response word

/-- `is_candidate` (`wordle.py` lines 230-245): consistency against every
(guess, response) pair in order. -/
def is_candidate (word : List Char) : List (List Char) → List (List Char) →
    Except WErr Bool
  | [], _ => .ok true
  | _ :: _, [] => .error .indexError
  | g :: gs, r :: rs => do
    let b ← is_legal_guess word g r
    if b then is_candidate word gs rs else .ok false

/-! ### Structural views of the two passes

The index-based loops of `eval_guess` are related to structural recursions
over the aligned list suffixes, which the proofs below induct on. -/

/-- Result entries written by the first pass: `'g'` at matching positions,
the previous buffer entry elsewhere; buffer entries beyond the guess are
kept. -/
def p1list : List Char → List Char → List Char → List Char
  | g :: gs, a :: as, r :: rs => (if g = a then 'g' else r) :: p1list gs as rs
  | _, _, rs => rs

/-- Per-letter number of matching positions, i.e. the `seen` counter built
by the first pass. -/
def mcount : List Char → List Char → Char → Nat
  | g :: gs, a :: as, c => (if g = a ∧ g = c then 1 else 0) + mcount gs as c
  | _, _, _ => 0

/-- Structural form of the second pass: rewrite a non-`'g'` entry to `'y'`
when the letter occurs in the answer and is not yet fully consumed. -/
def pass2L (answer : List Char) (count : Char → Nat) :
    List Char → List Char → (Char → Nat) → List Char × (Char → Nat)
  | g :: gs, r :: rs, seen =>
    if r ≠ 'g' ∧ answer.contains g ∧ seen g < count g then
      let p := pass2L answer count gs rs (bump seen g)
      ('y' :: p.1, p.2)
    else
      let p := pass2L answer count gs rs seen
      (r :: p.1, p.2)
  | _, rs, seen => (rs, seen)

/-! ### Hit counting (claim C8) -/

/-- Number of positions at which the two words agree. -/
def matchCount : List Char → List Char → Nat
  | g :: gs, a :: as => (if g = a then 1 else 0) + matchCount gs as
  | _, _ => 0

/-! ### Distinct-letter characterization (claim C1) -/

/-- Position-wise feedback for a duplicate-free guess against `word`:
`'g'` on a positional match, `'y'` when the letter occurs in `word`,
`'r'` otherwise. -/
def dFeed (word : List Char) : List Char → List Char → List Char
  | g :: gs, w :: ws =>
    (if g = w then 'g' else if word.contains g then 'y' else 'r') ::
      dFeed word gs ws
  | _, _ => []

/-- What the second pass does when every still-relevant `seen` count is
zero: non-hit entries become `'y'` exactly when the letter occurs in
`ans`. -/
def p2fix (ans : List Char) : List Char → List Char → List Char
  | g :: gs, r :: rs =>
    (if r = 'g' then r else if ans.contains g then 'y' else r) ::
      p2fix ans gs rs
  | _, rs => rs

/-! ### Partitioner (`get_hardest_response`, `get_candidates`) -/

deriving instance DecidableEq for Except

/-- `candidates[response].append(answer)` on an insertion-ordered
`defaultdict(list)` modelled as an association list. -/
def addToPartition : List (Feedback × List Word) → Feedback → Word →
    List (Feedback × List Word)
  | [], f, w => [(f, [w])]
  | p :: ps, f, w =>
    if p.1 = f then (p.1, p.2 ++ [w]) :: ps else p :: addToPartition ps f w

/-- The partition fold of `_get_hardest_response` (`wordle.py` lines
184-188): group the answers by the feedback the guess would receive. -/
def partitionFold (guess : Word) : List Word → List (Feedback × List Word) →
    Except WErr (List (Feedback × List Word))
  | [], acc => .ok acc
  | ans :: rest, acc =>
    match eval_guess guess ans with
    | .error e => .error e
    | .ok f => partitionFold guess rest (addToPartition acc f ans)

/-- `get_hardest_response` / `_get_hardest_response` (`wordle.py` lines
151-188). -/
def get_hardest_response (guess : Word) (answers : List Word) :
    Except WErr (Word × List (Feedback × List Word)) :=
  match partitionFold guess answers [] with
  | .error e => .error e
  | .ok part => .ok (guess, part)

/-- Fan-out over the guess pool, joined in task (input) order, as in
`get_candidates` (`wordle.py` lines 97-126). -/
def mapPartitions (answers : List Word) : List Word →
    Except WErr (List (Word × List (Feedback × List Word)))
  | [] => .ok []
  | g :: gs =>
    match get_hardest_response g answers with
    | .error e => .error e
    | .ok p =>
      match mapPartitions answers gs with
      | .error e => .error e
      | .ok ps => .ok (p :: ps)

/-- `get_candidates` (`wordle.py` lines 97-126). -/
def get_candidates (legal_guesses legal_answers : List Word) :
    Except WErr (List (Word × List (Feedback × List Word))) :=
  mapPartitions legal_answers legal_guesses

/-- `d[k]` on a `defaultdict(list)` association list: first matching key,
a missing key yields the empty bucket. -/
def lookupD : List (Feedback × List Word) → Feedback → List Word
  | [], _ => []
  | p :: ps, f => if p.1 = f then p.2 else lookupD ps f

/-- All answers grouped into the buckets, i.e. the flattened partition. -/
def bucketsJoin (part : List (Feedback × List Word)) : List Word :=
  (part.map Prod.snd).flatten

/-! ### Cardinalities and the selector (`get_cardinalities`, `main`) -/

/-- Descending-size order used by `get_cardinalities`
(`result.sort(key=lambda t: t[1], reverse=True)`, a stable sort). -/
def descSize (x y : Feedback × Nat) : Prop := y.2 ≤ x.2

instance : DecidableRel descSize := fun x y => Nat.decLe y.2 x.2

instance : IsTotal (Feedback × Nat) descSize := ⟨fun a b => Nat.le_total b.2 a.2⟩

instance : IsTrans (Feedback × Nat) descSize :=
  ⟨fun _ _ _ hab hbc => Nat.le_trans hbc hab⟩

/-- `get_cardinalities` (`wordle.py` lines 129-148): (feedback, size)
pairs in dict insertion order, stably sorted by descending bucket size. -/
def get_cardinalities (candidates : List (Feedback × List Word)) :
    List (Feedback × Nat) :=
  List.insertionSort descSize (candidates.map fun p => (p.1, p.2.length))

/-- Lexicographic comparison of the Python tuple sort key
`(t[1][0][1], t[1][0][0].count('g'))` from `main` (line 84). -/
def keyPairLe (x y : Nat × Nat) : Prop :=
  x.1 < y.1 ∨ (x.1 = y.1 ∧ x.2 ≤ y.2)

/-- Strict version of `keyPairLe`. -/
def keyPairLt (x y : Nat × Nat) : Prop :=
  x.1 < y.1 ∨ (x.1 = y.1 ∧ x.2 < y.2)

instance : DecidableRel keyPairLe := fun x y => by
  unfold keyPairLe
  exact inferInstance

instance : DecidableRel keyPairLt := fun x y => by
  unfold keyPairLt
  exact inferInstance

/-- Sort key of one `(guess, cardinalities)` entry: worst bucket size,
then HIT count of the worst bucket feedback. In the code an empty
cardinalities list raises `IndexError` inside the key function (Python
computes every key before sorting); the selector below checks that case
up front, so the `(0, 0)` default is never reached. -/
def sortKey (t : Word × List (Feedback × Nat)) : Nat × Nat :=
  match t.2 with
  | [] => (0, 0)
  | c :: _ => (c.2, c.1.count 'g')

/-- The key order of `gc_cardinalities.sort` in `main` (line 84). -/
def gcLe (x y : Word × List (Feedback × Nat)) : Prop :=
  keyPairLe (sortKey x) (sortKey y)

instance : DecidableRel gcLe := fun x y => by
  unfold gcLe
  exact inferInstance

instance : IsTotal (Word × List (Feedback × Nat)) gcLe :=
  ⟨fun a b => by
    unfold gcLe keyPairLe
    omega⟩

instance : IsTrans (Word × List (Feedback × Nat)) gcLe :=
  ⟨fun _ _ _ hab hbc => by
    unfold gcLe keyPairLe at *
    omega⟩

/-- The `gc_cardinalities` list of `main` (lines 77-83), in dict order. -/
def gcCardinalities (results : List (Word × List (Feedback × List Word))) :
    List (Word × List (Feedback × Nat)) :=
  results.map fun p => (p.1, get_cardinalities p.2)

/-- The sort plus `gc_cardinalities[0]` of `main` (lines 84-90): Python
raises `IndexError` when some key hits an empty cardinalities list, or
when the pool is empty. -/
def select_sorted (results : List (Word × List (Feedback × List Word))) :
    Except WErr (Word × List (Feedback × Nat)) :=
  if (gcCardinalities results).any (fun t => t.2.isEmpty) then
    .error .indexError
  else
    match List.insertionSort gcLe (gcCardinalities results) with
    | [] => .error .indexError
    | t :: _ => .ok t

/-- The chosen `best_word` of `main` (line 86). -/
def select_best (results : List (Word × List (Feedback × List Word))) :
    Except WErr Word :=
  match select_sorted results with
  | .error e => .error e
  | .ok t => .ok t.1

/-- First element attaining the strictly minimal sort key: the reference
meaning of "first under the order" with stable ties. -/
def firstMinBy : List (Word × List (Feedback × Nat)) →
    Option (Word × List (Feedback × Nat))
  | [] => none
  | x :: xs =>
    match firstMinBy xs with
    | none => some x
    | some y => if keyPairLt (sortKey y) (sortKey x) then some y else some x

/-! ### Round loop (`main`, `wordle.py` lines 68-94) -/

/-- The loop state of `main`: remaining forced guesses (`args.guesses`),
remaining forced feedback values (`args.clues`), the current candidate
answers (`legal_answers`) and the static guess vocabulary
(`legal_guesses`). -/
structure RoundState where
  forcedGuesses : List Word
  clues : List Feedback
  legalAnswers : List Word
  legalGuesses : List Word
  deriving DecidableEq, Repr

/-- The guess pool of one round (lines 70-75). -/
def guess_pool (s : RoundState) : List Word :=
  match s.forcedGuesses with
  | g :: _ => [g]
  | [] =>
    if s.legalAnswers.length = 1 then s.legalAnswers else s.legalGuesses

/-- One round's printed report `best_word response len(legal_answers)`
(line 92). -/
abbrev Report := Word × Feedback × Nat

/-- The response of a round (lines 87-90): the next forced clue if one
remains, else the worst-case feedback `gc_cardinalities[0][1][0][0]`. -/
def pick_response (s : RoundState) (t : Word × List (Feedback × Nat)) :
    Except WErr (Feedback × List Feedback) :=
  match s.clues with
  | c :: cs => .ok (c, cs)
  | [] =>
    match t.2 with
    | [] => .error .indexError
    | c0 :: _ => .ok (c0.1, [])

/-- One iteration of the `while` body (lines 69-94). The outer `Except`
is an exception raised before the `print`; the returned report is the
printed line; the inner `Except` is the no-legal-answers exception raised
after the `print`. -/
def round_step (s : RoundState) :
    Except WErr (Report × Except WErr RoundState) :=
  match get_candidates (guess_pool s) s.legalAnswers with
  | .error e => .error e
  | .ok gcands =>
    match select_sorted gcands with
    | .error e => .error e
    | .ok t =>
      match pick_response s t with
      | .error e => .error e
      | .ok (response, clues2) =>
        match gcands.find? (fun p => p.1 == t.1) with
        | none => .error .keyError
        | some gp =>
          if (lookupD gp.2 response).length < 1 then
            .ok ((t.1, response, (lookupD gp.2 response).length),
              .error .noLegalAnswers)
          else
            .ok ((t.1, response, (lookupD gp.2 response).length),
              .ok { forcedGuesses := s.forcedGuesses.tail,
                    clues := clues2,
                    legalAnswers := lookupD gp.2 response,
                    legalGuesses := s.legalGuesses })

/-- Outcome of the whole `while` loop, with the printed log. -/
inductive LoopResult where
  | solved (log : List Report)
  | failedBefore (log : List Report) (e : WErr)
  | failedAfter (log : List Report) (e : WErr)
  | fuelOut (log : List Report)
  deriving DecidableEq, Repr

/-- The `while response != "ggggg"` loop of `main` (lines 68-94), with
explicit fuel. The body always completes (including the post-print
emptiness check) before the loop condition is re-examined. -/
def run_loop : Nat → RoundState → LoopResult
  | 0, _ => .fuelOut []
  | n + 1, s =>
    match round_step s with
    | .error e => .failedBefore [] e
    | .ok (report, inner) =>
      match inner with
      | .error e => .failedAfter [report] e
      | .ok s2 =>
        if report.2.1 = ['g', 'g', 'g', 'g', 'g'] then .solved [report]
        else
          match run_loop n s2 with
          | .solved log => .solved (report :: log)
          | .failedBefore log e => .failedBefore (report :: log) e
          | .failedAfter log e => .failedAfter (report :: log) e
          | .fuelOut log => .fuelOut (report :: log)

/-- The round loop driven by feedback derived from a fixed secret: each
round's response is `evaluate(chosen guess, secret)`, the run pattern of
the spec's termination property, assembled from the code's own round
pieces (`get_candidates`, the sort/selection of `main`, and the
`legal_answers = guess_candidates[best_word][response]` update). Returns
`ok true` on reaching the all-HIT response within the fuel. -/
def run_secret (secret : Word) : Nat → RoundState → Except WErr Bool
  | 0, _ => .ok false
  | n + 1, s =>
    match get_candidates (guess_pool s) s.legalAnswers with
    | .error e => .error e
    | .ok gcands =>
      match select_sorted gcands with
      | .error e => .error e
      | .ok t =>
        match eval_guess t.1 secret with
        | .error e => .error e
        | .ok response =>
          match gcands.find? (fun p => p.1 == t.1) with
          | none => .error .keyError
          | some gp =>
            if (lookupD gp.2 response).length < 1 then
              .error .noLegalAnswers
            else if response = ['g', 'g', 'g', 'g', 'g'] then .ok true
            else run_secret secret n
              { forcedGuesses := s.forcedGuesses.tail,
                clues := s.clues,
                legalAnswers := lookupD gp.2 response,
                legalGuesses := s.legalGuesses }

/-! ### Spec-side selector order (claim C2) -/

/-- Lexicographic comparison of words. -/
def lexLeB : List Char → List Char → Bool
  | [], _ => true
  | _ :: _, [] => false
  | a :: as, b :: bs =>
    if a < b then true else if a = b then lexLeB as bs else false

/-- Modelled from the spec: the within-guess ranking of claim C2 —
descending bucket size, ties broken by descending HIT count. -/
def claimDesc (x y : Feedback × Nat) : Prop :=
  y.2 < x.2 ∨ (y.2 = x.2 ∧ y.1.count 'g' ≤ x.1.count 'g')

instance : DecidableRel claimDesc := fun x y => by
  unfold claimDesc
  exact inferInstance

/-- Modelled from the spec: claim C2's per-guess key, computed on the
claim-ranked cardinalities. -/
def claimKeyOf (t : Word × List (Feedback × List Word)) : Nat × Nat :=
  match List.insertionSort claimDesc (t.2.map fun p => (p.1, p.2.length)) with
  | [] => (0, 0)
  | c :: _ => (c.2, c.1.count 'g')

/-- Modelled from the spec: claim C2's selector order — ascending
largest-bucket size, ties by descending HIT count, further ties by
lexicographic guess order. -/
def claimPrecedes (x y : Word × List (Feedback × List Word)) : Prop :=
  (claimKeyOf x).1 < (claimKeyOf y).1 ∨
    ((claimKeyOf x).1 = (claimKeyOf y).1 ∧
      ((claimKeyOf y).2 < (claimKeyOf x).2 ∨
        ((claimKeyOf x).2 = (claimKeyOf y).2 ∧ lexLeB x.1 y.1 = true)))

instance : DecidableRel claimPrecedes := fun x y => by
  unfold claimPrecedes
  exact inferInstance

/-- Modelled from the spec: the first entry in claim C2's order. -/
def firstMinClaim : List (Word × List (Feedback × List Word)) →
    Option (Word × List (Feedback × List Word))
  | [] => none
  | x :: xs =>
    match firstMinClaim xs with
    | none => some x
    | some y => if claimPrecedes x y then some x else some y

/-- Modelled from the spec: the selector claim C2 describes. -/
def select_best_claimed
    (results : List (Word × List (Feedback × List Word))) : Option Word :=
  (firstMinClaim results).map fun t => t.1

/-- A two-guess, two-answer scenario separating the code's selector from
the claimed order (the real `get_candidates` output for guesses and
answers both `["aaaaa", "bbbbb"]`). -/
def selCex : List (Word × List (Feedback × List Word)) :=
  [("aaaaa".toList,
    [("ggggg".toList, ["aaaaa".toList]), ("rrrrr".toList, ["bbbbb".toList])]),
   ("bbbbb".toList,
    [("rrrrr".toList, ["aaaaa".toList]), ("ggggg".toList, ["bbbbb".toList])])]

/-- The round state of the C3 counterexample: one candidate answer,
forced feedback `yyyyy`, which no candidate can produce. -/
def C3state : RoundState :=
  { forcedGuesses := [], clues := ["yyyyy".toList],
    legalAnswers := ["aaaaa".toList], legalGuesses := ["aaaaa".toList] }

/-- A state refuting the unconditional C9 bound: the guess vocabulary
(only "zzzzz") cannot separate the two candidate answers, so the loop
never narrows the candidates and the secret-driven run exhausts
`len(answers)` rounds unsolved. -/
def C9cexState : RoundState :=
  { forcedGuesses := [], clues := [],
    legalAnswers := [['a', 'a', 'a', 'a', 'a'], ['b', 'b', 'b', 'b', 'b']],
    legalGuesses := [['z', 'z', 'z', 'z', 'z']] }

/-- A state for the C9 witness: both candidate answers belong to the guess
vocabulary, so the bound applies. -/
def W9state : RoundState :=
  { forcedGuesses := [], clues := [],
    legalAnswers := [['a', 'a', 'a', 'a', 'a'], ['b', 'b', 'b', 'b', 'b']],
    legalGuesses := [['a', 'a', 'a', 'a', 'a'], ['b', 'b', 'b', 'b', 'b']] }

theorem p1list_length : ∀ gs as rs, (p1list gs as rs).length = rs.length
  | [], _, _ => rfl
  | _ :: _, [], _ => rfl
  | _ :: _, _ :: _, [] => rfl
  | g :: gs, a :: as, r :: rs => by
    simp [p1list, p1list_length gs as rs]

theorem pass2L_length (ans : List Char) (count : Char → Nat) :
    ∀ gs rs seen, ((pass2L ans count gs rs seen).1).length = rs.length
  | [], _, _ => rfl
  | _ :: _, [], _ => rfl
  | g :: gs, r :: rs, seen => by
    simp only [pass2L]
    split
    · simp [pass2L_length ans count gs rs (bump seen g)]
    · simp [pass2L_length ans count gs rs seen]

theorem set_append_length (l t : List Char) (b : Char) (a : Char) :
    (l ++ a :: t).set l.length b = l ++ b :: t := by
  induction l with
  | nil => rfl
  | cons x xs ih => simp [ih]

theorem get?_append_length (l t : List Char) (a : Char) :
    (l ++ a :: t).get? l.length = some a := by
  induction l with
  | nil => rfl
  | cons x xs ih =>
    rw [List.cons_append, List.length_cons, List.get?_cons_succ]
    exact ih

theorem pass1_step_hit (g a : Char) (gs as : List Char) (i : Nat)
    (res res2 : List Char) (seen : Char → Nat) (hga : g = a)
    (hset : pySet res i 'g' = some res2) :
    pass1 (g :: gs) (a :: as) i res seen =
      pass1 gs as (i + 1) res2 (bump seen g) := by
  simp only [pass1, if_pos hga, hset]

theorem pass1_step_miss (g a : Char) (gs as : List Char) (i : Nat)
    (res : List Char) (seen : Char → Nat) (hga : ¬g = a) :
    pass1 (g :: gs) (a :: as) i res seen = pass1 gs as (i + 1) res seen := by
  simp only [pass1, if_neg hga]

theorem pass2_step_y (ans : List Char) (count : Char → Nat) (g : Char)
    (gs : List Char) (i : Nat) (res res2 : List Char) (seen : Char → Nat)
    (r : Char) (hget : res.get? i = some r) (hr : ¬r = 'g')
    (hcont : ans.contains g = true) (hlt : seen g < count g)
    (hset : pySet res i 'y' = some res2) :
    pass2 ans count (g :: gs) i res seen =
      pass2 ans count gs (i + 1) res2 (bump seen g) := by
  simp only [pass2, hget, if_pos hr, hcont, if_pos hlt, hset, ite_true]

theorem pass2_step_keep (ans : List Char) (count : Char → Nat) (g : Char)
    (gs : List Char) (i : Nat) (res : List Char) (seen : Char → Nat)
    (r : Char) (hget : res.get? i = some r)
    (h : r = 'g' ∨ ans.contains g = false ∨ ¬seen g < count g) :
    pass2 ans count (g :: gs) i res seen =
      pass2 ans count gs (i + 1) res seen := by
  rcases h with h | h | h
  · simp only [pass2, hget, h]
    simp
  · simp only [pass2, hget, h]
    split <;> simp
  · simp only [pass2, hget, if_neg h]
    split <;> [skip; rfl]
    split <;> rfl

/-- The first pass, run on a buffer `done ++ rest` at index `|done|`,
rewrites `rest` to `p1list` and adds the hit counts to `seen`. -/
theorem pass1_eq : ∀ (gs as : List Char), ∀ (done rest : List Char),
    ∀ (seen : Char → Nat),
    gs.length = as.length → gs.length ≤ rest.length →
    pass1 gs as done.length (done ++ rest) seen =
      .ok (done ++ p1list gs as rest, fun c => seen c + mcount gs as c)
  | [], as, done, rest, seen, _, _ => by
    simp [pass1, p1list, mcount]
  | g :: gs, [], done, rest, seen, hlen, _ => by
    simp at hlen
  | g :: gs, a :: as, done, [], seen, _, hrest => by
    simp at hrest
  | g :: gs, a :: as, done, r :: rs, seen, hlen, hrest => by
    simp only [List.length_cons] at hlen hrest
    by_cases hga : g = a
    · have hset : pySet (done ++ r :: rs) done.length 'g' =
          some (done ++ 'g' :: rs) := by
        simp [pySet, set_append_length]
      rw [pass1_step_hit g a gs as done.length (done ++ r :: rs)
        (done ++ 'g' :: rs) seen hga hset]
      have hrec := pass1_eq gs as (done ++ ['g']) rs (bump seen g)
        (by omega) (by omega)
      simp only [List.length_append, List.length_cons, List.length_nil,
        List.append_assoc, List.singleton_append, Nat.zero_add] at hrec
      rw [hrec]
      simp only [Except.ok.injEq, Prod.mk.injEq]
      refine ⟨by simp [p1list, hga], ?_⟩
      funext c
      subst hga
      by_cases hc : c = g
      · subst hc
        simp [mcount, bump]
        omega
      · have hgc : ¬g = c := fun h => hc h.symm
        simp [mcount, bump, hc, hgc]
    · rw [pass1_step_miss g a gs as done.length (done ++ r :: rs) seen hga]
      have hrec := pass1_eq gs as (done ++ [r]) rs seen (by omega) (by omega)
      simp only [List.length_append, List.length_cons, List.length_nil,
        List.append_assoc, List.singleton_append, Nat.zero_add] at hrec
      rw [hrec]
      simp only [Except.ok.injEq, Prod.mk.injEq]
      refine ⟨by simp [p1list, hga], ?_⟩
      funext c
      simp [mcount, hga]

/-- The second pass, run on a buffer `done ++ rest` at index `|done|`,
computes `pass2L` on `rest`. -/
theorem pass2_eq (answer : List Char) (count : Char → Nat) :
    ∀ (gs : List Char), ∀ (done rest : List Char), ∀ (seen : Char → Nat),
    gs.length ≤ rest.length →
    pass2 answer count gs done.length (done ++ rest) seen =
      .ok (done ++ (pass2L answer count gs rest seen).1,
           (pass2L answer count gs rest seen).2)
  | [], done, rest, seen, _ => by
    simp [pass2, pass2L]
  | g :: gs, done, [], seen, hrest => by
    simp at hrest
  | g :: gs, done, r :: rs, seen, hrest => by
    simp only [List.length_cons] at hrest
    have hget : (done ++ r :: rs).get? done.length = some r :=
      get?_append_length done rs r
    by_cases hcond : ¬r = 'g' ∧ answer.contains g = true ∧ seen g < count g
    · obtain ⟨hr, hcont, hlt⟩ := hcond
      have hset : pySet (done ++ r :: rs) done.length 'y' =
          some (done ++ 'y' :: rs) := by
        simp [pySet, set_append_length]
      rw [pass2_step_y answer count g gs done.length (done ++ r :: rs)
        (done ++ 'y' :: rs) seen r hget hr hcont hlt hset]
      have hrec := pass2_eq answer count gs (done ++ ['y']) rs
        (bump seen g) (by omega)
      simp only [List.length_append, List.length_cons, List.length_nil,
        List.append_assoc, List.singleton_append, Nat.zero_add] at hrec
      rw [hrec]
      have hL : pass2L answer count (g :: gs) (r :: rs) seen =
          ('y' :: (pass2L answer count gs rs (bump seen g)).1,
           (pass2L answer count gs rs (bump seen g)).2) := by
        simp only [pass2L, if_pos (by exact ⟨hr, hcont, hlt⟩ :
          ¬r = 'g' ∧ answer.contains g = true ∧ seen g < count g)]
      rw [hL]
    · have hkeep : r = 'g' ∨ answer.contains g = false ∨ ¬seen g < count g := by
        by_cases h1 : r = 'g'
        · exact Or.inl h1
        · by_cases h2 : answer.contains g = true
          · refine Or.inr (Or.inr ?_)
            intro hlt
            exact hcond ⟨h1, h2, hlt⟩
          · exact Or.inr (Or.inl (by simpa using h2))
      rw [pass2_step_keep answer count g gs done.length (done ++ r :: rs)
        seen r hget hkeep]
      have hrec := pass2_eq answer count gs (done ++ [r]) rs seen (by omega)
      simp only [List.length_append, List.length_cons, List.length_nil,
        List.append_assoc, List.singleton_append, Nat.zero_add] at hrec
      rw [hrec]
      have hL : pass2L answer count (g :: gs) (r :: rs) seen =
          (r :: (pass2L answer count gs rs seen).1,
           (pass2L answer count gs rs seen).2) := by
        simp only [pass2L, if_neg hcond]
      rw [hL]

/-- `eval_guess` on equal-length inputs of length at most 5 succeeds and
computes the composition of the two structural passes. -/
theorem eval_guess_eq (g a : List Char) (hlen : g.length = a.length)
    (h5 : g.length ≤ 5) :
    eval_guess g a =
      .ok ((pass2L a (fun c => a.count c) g
              (p1list g a (List.replicate 5 'r'))
              (fun c => mcount g a c)).1) := by
  have h1 := pass1_eq g a [] (List.replicate 5 'r') (fun _ => 0) hlen
    (by simpa using h5)
  have h2 := pass2_eq a (fun c => a.count c) g []
    (p1list g a (List.replicate 5 'r')) (fun c => mcount g a c)
    (by rw [p1list_length]; simpa using h5)
  simp only [List.length_nil, List.nil_append, Nat.zero_add] at h1 h2
  simp only [eval_guess, if_neg (by omega : ¬g.length ≠ a.length), h1, h2]

/-! ### Error classification of `eval_guess` -/

theorem pass1_step_setfail (g a : Char) (gs as : List Char) (i : Nat)
    (res : List Char) (seen : Char → Nat) (hga : g = a)
    (hset : pySet res i 'g' = none) :
    pass1 (g :: gs) (a :: as) i res seen = .error .indexError := by
  simp only [pass1, if_pos hga, hset]

theorem pass2_step_none (ans : List Char) (count : Char → Nat) (g : Char)
    (gs : List Char) (i : Nat) (res : List Char) (seen : Char → Nat)
    (hget : res.get? i = none) :
    pass2 ans count (g :: gs) i res seen = .error .indexError := by
  simp only [pass2, hget]

theorem pass2_step_setfail (ans : List Char) (count : Char → Nat) (g : Char)
    (gs : List Char) (i : Nat) (res : List Char) (seen : Char → Nat)
    (r : Char) (hget : res.get? i = some r) (hr : ¬r = 'g')
    (hcont : ans.contains g = true) (hlt : seen g < count g)
    (hset : pySet res i 'y' = none) :
    pass2 ans count (g :: gs) i res seen = .error .indexError := by
  simp only [pass2, hget, if_pos hr, hcont, if_pos hlt, hset, ite_true]

theorem pass1_ne_lengthMismatch : ∀ (gs as : List Char) (i : Nat)
    (res : List Char) (seen : Char → Nat),
    pass1 gs as i res seen ≠ .error .lengthMismatch
  | [], _, _, _, _ => by simp [pass1]
  | _ :: _, [], _, _, _ => by simp [pass1]
  | g :: gs, a :: as, i, res, seen => by
    by_cases hga : g = a
    · cases hset : pySet res i 'g' with
      | none =>
        rw [pass1_step_setfail g a gs as i res seen hga hset]
        simp
      | some res2 =>
        rw [pass1_step_hit g a gs as i res res2 seen hga hset]
        exact pass1_ne_lengthMismatch gs as (i + 1) res2 (bump seen g)
    · rw [pass1_step_miss g a gs as i res seen hga]
      exact pass1_ne_lengthMismatch gs as (i + 1) res seen

theorem pass2_ne_lengthMismatch (ans : List Char) (count : Char → Nat) :
    ∀ (gs : List Char) (i : Nat) (res : List Char) (seen : Char → Nat),
    pass2 ans count gs i res seen ≠ .error .lengthMismatch
  | [], _, _, _ => by simp [pass2]
  | g :: gs, i, res, seen => by
    cases hget : res.get? i with
    | none =>
      rw [pass2_step_none ans count g gs i res seen hget]
      simp
    | some r =>
      by_cases hcond : ¬r = 'g' ∧ ans.contains g = true ∧ seen g < count g
      · obtain ⟨hr, hcont, hlt⟩ := hcond
        cases hset : pySet res i 'y' with
        | none =>
          rw [pass2_step_setfail ans count g gs i res seen r hget hr hcont
            hlt hset]
          simp
        | some res2 =>
          rw [pass2_step_y ans count g gs i res res2 seen r hget hr hcont
            hlt hset]
          exact pass2_ne_lengthMismatch ans count gs (i + 1) res2 (bump seen g)
      · have hkeep : r = 'g' ∨ ans.contains g = false ∨ ¬seen g < count g := by
          by_cases h1 : r = 'g'
          · exact Or.inl h1
          · by_cases h2 : ans.contains g = true
            · exact Or.inr (Or.inr fun hlt => hcond ⟨h1, h2, hlt⟩)
            · exact Or.inr (Or.inl (by simpa using h2))
        rw [pass2_step_keep ans count g gs i res seen r hget hkeep]
        exact pass2_ne_lengthMismatch ans count gs (i + 1) res seen

/-- `eval_guess` raises the length-mismatch exception exactly when the
two inputs differ in length. -/
theorem eval_guess_lengthMismatch_iff (g a : List Char) :
    eval_guess g a = .error .lengthMismatch ↔ g.length ≠ a.length := by
  constructor
  · intro h
    by_contra hlen
    unfold eval_guess at h
    rw [if_neg (by omega : ¬g.length ≠ a.length)] at h
    cases h1 : pass1 g a 0 (List.replicate 5 'r') (fun _ => 0) with
    | error e =>
      rw [h1] at h
      have h' : (Except.error e : Except WErr (List Char)) =
          .error .lengthMismatch := h
      injection h' with he
      subst he
      exact pass1_ne_lengthMismatch g a 0 (List.replicate 5 'r')
        (fun _ => 0) h1
    | ok p =>
      obtain ⟨r1, s1⟩ := p
      simp only [h1] at h
      cases h2 : pass2 a (fun c => a.count c) g 0 r1 s1 with
      | error e =>
        simp only [h2] at h
        have h' : (Except.error e : Except WErr (List Char)) =
            .error .lengthMismatch := h
        injection h' with he
        subst he
        exact pass2_ne_lengthMismatch a (fun c => a.count c) g 0 r1 s1 h2
      | ok q =>
        obtain ⟨r2, s2⟩ := q
        simp only [h2] at h
        have h' : (Except.ok r2 : Except WErr (List Char)) =
            .error .lengthMismatch := h
        cases h'
  · intro h
    simp [eval_guess, h]

theorem pass2L_count_g (ans : List Char) (count : Char → Nat) :
    ∀ (gs rs : List Char) (seen : Char → Nat),
    ((pass2L ans count gs rs seen).1).count 'g' = rs.count 'g'
  | [], rs, seen => rfl
  | _ :: _, [], _ => rfl
  | g :: gs, r :: rs, seen => by
    by_cases hcond : ¬r = 'g' ∧ ans.contains g = true ∧ seen g < count g
    · have h1 : pass2L ans count (g :: gs) (r :: rs) seen =
          ('y' :: (pass2L ans count gs rs (bump seen g)).1,
           (pass2L ans count gs rs (bump seen g)).2) := by
        simp only [pass2L, if_pos hcond]
      rw [h1]
      simp [List.count_cons, pass2L_count_g ans count gs rs (bump seen g),
        hcond.1]
    · have h1 : pass2L ans count (g :: gs) (r :: rs) seen =
          (r :: (pass2L ans count gs rs seen).1,
           (pass2L ans count gs rs seen).2) := by
        simp only [pass2L, if_neg hcond]
      rw [h1]
      simp [List.count_cons, pass2L_count_g ans count gs rs seen]

theorem p1list_count_g : ∀ (gs as rs : List Char),
    gs.length = as.length → gs.length ≤ rs.length → (∀ r ∈ rs, r = 'r') →
    (p1list gs as rs).count 'g' = matchCount gs as
  | [], as, rs, hlen, _, hr => by
    have : as = [] := by
      cases as with
      | nil => rfl
      | cons x xs => simp at hlen
    subst this
    simp only [p1list, matchCount]
    refine List.count_eq_zero.mpr fun h => ?_
    have := hr _ h
    simp at this
  | g :: gs, [], rs, hlen, _, hr => by simp at hlen
  | g :: gs, a :: as, [], hlen, hrest, hr => by simp at hrest
  | g :: gs, a :: as, r :: rs, hlen, hrest, hr => by
    simp only [List.length_cons] at hlen hrest
    have hrr : r = 'r' := hr r (by simp)
    have htail : ∀ x ∈ rs, x = 'r' := fun x hx => hr x (by simp [hx])
    by_cases hga : g = a
    · simp [p1list, matchCount, hga, List.count_cons,
        p1list_count_g gs as rs (by omega) (by omega) htail]
      omega
    · simp [p1list, matchCount, hga, List.count_cons, hrr,
        p1list_count_g gs as rs (by omega) (by omega) htail]

theorem dFeed_length (word : List Char) : ∀ gs ws : List Char,
    gs.length = ws.length → (dFeed word gs ws).length = gs.length
  | [], [], _ => rfl
  | [], _ :: _, h => by simp at h
  | _ :: _, [], h => by simp at h
  | g :: gs, w :: ws, h => by
    simp only [List.length_cons] at h
    simp [dFeed, dFeed_length word gs ws (by omega)]

theorem mem_zip_exists_get? : ∀ (l1 l2 : List Char) (p : Char × Char),
    p ∈ l1.zip l2 → ∃ k, l1.get? k = some p.1 ∧ l2.get? k = some p.2
  | [], _, p, h => by simp [List.zip] at h
  | _ :: _, [], p, h => by simp [List.zip] at h
  | x :: l1, y :: l2, p, h => by
    rw [List.zip_cons_cons, List.mem_cons] at h
    rcases h with h | h
    · exact ⟨0, by simp [h], by simp [h]⟩
    · obtain ⟨k, h1, h2⟩ := mem_zip_exists_get? l1 l2 p h
      exact ⟨k + 1, by simpa [List.get?_cons_succ] using h1,
        by simpa [List.get?_cons_succ] using h2⟩

theorem nodup_get?_inj (l : List Char) (hnd : l.Nodup) (k k2 : Nat)
    (c : Char) (h1 : l.get? k = some c) (h2 : l.get? k2 = some c) :
    k = k2 := by
  rw [List.get?_eq_some] at h1 h2
  obtain ⟨hk, hgk⟩ := h1
  obtain ⟨hk2, hgk2⟩ := h2
  have hinj := List.nodup_iff_injective_get.mp hnd
  have heq : (⟨k, hk⟩ : Fin l.length) = ⟨k2, hk2⟩ :=
    hinj (by rw [hgk, hgk2])
  simpa using heq

theorem p1list_get? : ∀ (gs as rs : List Char) (k : Nat) (gk ak rk : Char),
    gs.get? k = some gk → as.get? k = some ak → rs.get? k = some rk →
    (p1list gs as rs).get? k = some (if gk = ak then 'g' else rk)
  | [], _, _, _, _, _, _, hg, _, _ => by simp at hg
  | _ :: _, [], _, _, _, _, _, _, ha, _ => by simp at ha
  | _ :: _, _ :: _, [], _, _, _, _, _, _, hr => by simp at hr
  | g :: gs, a :: as, r :: rs, 0, gk, ak, rk, hg, ha, hr => by
    simp only [List.get?_cons_zero, Option.some.injEq] at hg ha hr
    subst hg; subst ha; subst hr
    simp [p1list]
  | g :: gs, a :: as, r :: rs, k + 1, gk, ak, rk, hg, ha, hr => by
    simp only [List.get?_cons_succ] at hg ha hr
    simp only [p1list, List.get?_cons_succ]
    exact p1list_get? gs as rs k gk ak rk hg ha hr

theorem mcount_eq_zero : ∀ (gs as : List Char) (c : Char),
    (∀ p ∈ gs.zip as, p.1 = c → p.2 ≠ c) → mcount gs as c = 0
  | [], _, _, _ => rfl
  | _ :: _, [], _, _ => rfl
  | g :: gs, a :: as, c, h => by
    have ht := mcount_eq_zero gs as c
      (fun p hp => h p (by rw [List.zip_cons_cons]; exact List.mem_cons_of_mem _ hp))
    by_cases hgc : g = c
    · have hac : a ≠ c :=
        h (g, a) (by rw [List.zip_cons_cons]; exact List.mem_cons_self _ _) hgc
      have hga : ¬(g = a ∧ g = c) := fun hh => hac (hh.1 ▸ hh.2)
      simp [mcount, if_neg hga, ht]
    · have hga : ¬(g = a ∧ g = c) := fun hh => hgc hh.2
      simp [mcount, if_neg hga, ht]

theorem pass2L_nodup (ans : List Char) : ∀ (gs rs : List Char)
    (seen : Char → Nat), gs.Nodup →
    (∀ p ∈ gs.zip rs, p.2 ≠ 'g' → seen p.1 = 0) →
    (pass2L ans (fun c => ans.count c) gs rs seen).1 = p2fix ans gs rs
  | [], rs, seen, _, _ => rfl
  | _ :: _, [], _, _, _ => rfl
  | g :: gs, r :: rs, seen, hnd, h => by
    obtain ⟨hg_mem, hnd'⟩ := List.nodup_cons.mp hnd
    have htail : ∀ p ∈ gs.zip rs, p.2 ≠ 'g' → seen p.1 = 0 :=
      fun p hp => h p (by rw [List.zip_cons_cons]; exact List.mem_cons_of_mem _ hp)
    by_cases hr : r = 'g'
    · have hL : pass2L ans (fun c => ans.count c) (g :: gs) (r :: rs) seen =
          (r :: (pass2L ans (fun c => ans.count c) gs rs seen).1,
           (pass2L ans (fun c => ans.count c) gs rs seen).2) := by
        simp only [pass2L]
        rw [if_neg (by simp [hr])]
      rw [hL]
      simp only [p2fix, if_pos hr]
      rw [pass2L_nodup ans gs rs seen hnd' htail]
    · have hseen0 : seen g = 0 :=
        h (g, r) (by rw [List.zip_cons_cons]; exact List.mem_cons_self _ _) hr
      by_cases hcont : ans.contains g
      · have hmem : g ∈ ans := by simpa using hcont
        have hcnt : 0 < ans.count g := List.count_pos_iff.mpr hmem
        have hL : pass2L ans (fun c => ans.count c) (g :: gs) (r :: rs) seen =
            ('y' :: (pass2L ans (fun c => ans.count c) gs rs
                (bump seen g)).1,
             (pass2L ans (fun c => ans.count c) gs rs (bump seen g)).2) := by
          simp only [pass2L]
          rw [if_pos (by exact ⟨hr, hcont, by omega⟩)]
        rw [hL]
        simp only [p2fix, if_neg hr, if_pos hcont]
        rw [pass2L_nodup ans gs rs (bump seen g) hnd'
          (fun p hp hpg => by
            have hpmem : p.1 ∈ gs := by
              obtain ⟨p1, p2⟩ := p
              exact (List.of_mem_zip hp).1
            have hne : p.1 ≠ g := fun hh => hg_mem (hh ▸ hpmem)
            simp only [bump, if_neg hne]
            exact htail p hp hpg)]
      · have hL : pass2L ans (fun c => ans.count c) (g :: gs) (r :: rs) seen =
            (r :: (pass2L ans (fun c => ans.count c) gs rs seen).1,
             (pass2L ans (fun c => ans.count c) gs rs seen).2) := by
          simp only [pass2L]
          rw [if_neg (fun hh => hcont hh.2.1)]
        rw [hL]
        simp only [p2fix, if_neg hr, if_neg hcont]
        rw [pass2L_nodup ans gs rs seen hnd' htail]

theorem p2fix_p1list : ∀ (ans gs as rs : List Char),
    gs.length = as.length → gs.length = rs.length → (∀ x ∈ rs, x = 'r') →
    p2fix ans gs (p1list gs as rs) = dFeed ans gs as
  | _, [], [], [], _, _, _ => rfl
  | _, [], [], _ :: _, _, h2, _ => by simp at h2
  | _, [], _ :: _, _, h1, _, _ => by simp at h1
  | _, _ :: _, [], _, h1, _, _ => by simp at h1
  | _, _ :: _, _ :: _, [], _, h2, _ => by simp at h2
  | ans, g :: gs, a :: as, r :: rs, h1, h2, hr => by
    simp only [List.length_cons] at h1 h2
    have hrr : r = 'r' := hr r (by simp)
    have htail : ∀ x ∈ rs, x = 'r' := fun x hx => hr x (by simp [hx])
    have ih := p2fix_p1list ans gs as rs (by omega) (by omega) htail
    by_cases hga : g = a
    · simp [p1list, p2fix, dFeed, hga, ih]
    · subst hrr
      simp only [p1list, if_neg hga]
      simp only [p2fix, if_neg (by decide : ¬('r' : Char) = 'g')]
      simp [dFeed, if_neg hga, ih]

/-- On length-5 words, a duplicate-free guess receives exactly the
position-wise feedback `dFeed`. -/
theorem eval_guess_nodup (g a : List Char) (hg : g.length = 5)
    (ha : a.length = 5) (hnd : g.Nodup) :
    eval_guess g a = .ok (dFeed a g a) := by
  rw [eval_guess_eq g a (by omega) (by omega)]
  congr 1
  have hzip : ∀ p ∈ g.zip (p1list g a (List.replicate 5 'r')), p.2 ≠ 'g' →
      mcount g a p.1 = 0 := by
    intro p hp hpg
    obtain ⟨k, hk1, hk2⟩ := mem_zip_exists_get? _ _ p hp
    have hk5 : k < 5 := by
      have := (List.get?_eq_some.mp hk1).1
      omega
    have hak : a.get? k = some (a.get ⟨k, by omega⟩) :=
      List.get?_eq_get (by omega)
    have hrep : (List.replicate 5 'r').get? k = some 'r' := by
      rw [List.get?_eq_getElem?, List.getElem?_replicate, if_pos hk5]
    have hp1 := p1list_get? g a (List.replicate 5 'r') k p.1
      (a.get ⟨k, by omega⟩) 'r' hk1 hak hrep
    have hval : p.2 = if p.1 = a.get ⟨k, by omega⟩ then 'g' else 'r' := by
      injection (hk2.symm.trans hp1)
    have hne : p.1 ≠ a.get ⟨k, by omega⟩ := by
      intro hcc
      rw [if_pos hcc] at hval
      exact hpg hval
    apply mcount_eq_zero
    intro q hq hq1
    obtain ⟨k2, hq2, hq3⟩ := mem_zip_exists_get? _ _ q hq
    rw [hq1] at hq2
    have hkk : k2 = k := nodup_get?_inj g hnd k2 k p.1 hq2 hk1
    subst hkk
    have hq4 : q.2 = a.get ⟨k2, by omega⟩ := by
      injection (hq3.symm.trans hak)
    intro hcc
    exact hne ((hq4.symm.trans hcc).symm)
  rw [pass2L_nodup a g (p1list g a (List.replicate 5 'r'))
    (fun c => mcount g a c) hnd hzip]
  exact p2fix_p1list a g a (List.replicate 5 'r') (by omega)
    (by simp; omega) (by simp)

/-- The legality-checker loop of a duplicate-free guess accepts exactly
the position-wise feedback `dFeed`. -/
theorem legalLoop_nodup (word : List Char) : ∀ (gs rs ws : List Char)
    (seen : Char → Nat),
    gs.length = rs.length → gs.length = ws.length → gs.Nodup →
    (∀ c ∈ gs, seen c = 0) → (∀ w ∈ ws, w ∈ word) →
    (legalLoop word (fun c => word.count c) seen gs rs ws = .ok true ↔
      rs = dFeed word gs ws)
  | [], rs, ws, seen, hlen, _, _, _, _ => by
    have : rs = [] := by
      cases rs with
      | nil => rfl
      | cons x xs => simp at hlen
    subst this
    simp [legalLoop, dFeed]
  | g :: gs, [], ws, seen, hlen, _, _, _, _ => by simp at hlen
  | g :: gs, r :: rs, [], seen, _, hlen2, _, _, _ => by simp at hlen2
  | g :: gs, r :: rs, w :: ws, seen, hlen, hlen2, hnd, hseen, hws => by
    simp only [List.length_cons] at hlen hlen2
    obtain ⟨hg_mem, hnd'⟩ := List.nodup_cons.mp hnd
    have hseen_g : seen g = 0 := hseen g (by simp)
    have hw_mem : w ∈ word := hws w (by simp)
    have hseen' : ∀ c ∈ gs, seen c = 0 := fun c hc => hseen c (by simp [hc])
    have hws' : ∀ x ∈ ws, x ∈ word := fun x hx => hws x (by simp [hx])
    by_cases hr1 : r = 'r'
    · subst hr1
      simp only [legalLoop, reduceIte]
      by_cases hcont : word.contains g
      · rw [if_pos hcont]
        constructor
        · intro h
          simp at h
        · intro h
          exfalso
          rw [dFeed] at h
          injection h with h1 h2
          by_cases hgw : g = w
          · rw [if_pos hgw] at h1
            exact absurd h1 (by decide)
          · rw [if_neg hgw, if_pos hcont] at h1
            exact absurd h1 (by decide)
      · rw [if_neg hcont]
        rw [legalLoop_nodup word gs rs ws seen (by omega) (by omega) hnd'
          hseen' hws']
        have hgw : ¬g = w := by
          intro hh
          exact hcont (by simp [hh, hw_mem])
        simp only [dFeed, if_neg hgw, if_neg hcont, List.cons.injEq,
          true_and]
    · by_cases hr2 : r = 'g'
      · subst hr2
        simp only [legalLoop, reduceIte]
        rw [if_neg (show ¬('g' : Char) = 'r' by decide)]
        by_cases hgw : g = w
        · have hcnt : 0 < word.count g :=
            List.count_pos_iff.mpr (hgw ▸ hw_mem)
          have hcond : ¬(w ≠ g ∨ seen g = word.count g) := by
            rintro (hh | hh)
            · exact hh hgw.symm
            · omega
          rw [if_neg hcond]
          rw [legalLoop_nodup word gs rs ws (bump seen g) (by omega)
            (by omega) hnd'
            (fun c hc => by
              have hne : c ≠ g := fun hh => hg_mem (hh ▸ hc)
              simp only [bump, if_neg hne]
              exact hseen' c hc) hws']
          simp only [dFeed, if_pos hgw, List.cons.injEq, true_and]
        · have hcond : (w ≠ g ∨ seen g = word.count g) :=
            Or.inl (fun hh => hgw hh.symm)
          rw [if_pos hcond]
          constructor
          · intro h
            simp at h
          · intro h
            exfalso
            rw [dFeed] at h
            injection h with h1 h2
            rw [if_neg hgw] at h1
            by_cases hc : word.contains g
            · rw [if_pos hc] at h1
              exact absurd h1 (by decide)
            · rw [if_neg hc] at h1
              exact absurd h1 (by decide)
      · by_cases hr3 : r = 'y'
        · subst hr3
          simp only [legalLoop, reduceIte]
          rw [if_neg (show ¬('y' : Char) = 'r' by decide),
            if_neg (show ¬('y' : Char) = 'g' by decide)]
          by_cases hgw : g = w
          · have hcond : (w = g ∨ seen g = word.count g) :=
              Or.inl hgw.symm
            rw [if_pos hcond]
            constructor
            · intro h
              simp at h
            · intro h
              exfalso
              rw [dFeed] at h
              injection h with h1 h2
              rw [if_pos hgw] at h1
              exact absurd h1 (by decide)
          · by_cases hc : word.contains g
            · have hcnt : 0 < word.count g :=
                List.count_pos_iff.mpr (by simpa using hc)
              have hcond : ¬(w = g ∨ seen g = word.count g) := by
                rintro (hh | hh)
                · exact hgw hh.symm
                · omega
              rw [if_neg hcond]
              rw [legalLoop_nodup word gs rs ws seen (by omega) (by omega)
                hnd' hseen' hws']
              simp only [dFeed, if_neg hgw, if_pos hc, List.cons.injEq,
                true_and]
            · have hmem : g ∉ word := by simpa using hc
              have hcnt0 : word.count g = 0 := List.count_eq_zero.mpr hmem
              have hcond : (w = g ∨ seen g = word.count g) :=
                Or.inr (by omega)
              rw [if_pos hcond]
              constructor
              · intro h
                simp at h
              · intro h
                exfalso
                rw [dFeed] at h
                injection h with h1 h2
                rw [if_neg hgw, if_neg hc] at h1
                exact absurd h1 (by decide)
        · simp only [legalLoop, if_neg hr1, if_neg hr2, if_neg hr3]
          constructor
          · intro h
            simp at h
          · intro h
            exfalso
            rw [dFeed] at h
            injection h with h1 h2
            by_cases hgw : g = w
            · rw [if_pos hgw] at h1
              exact hr2 h1
            · rw [if_neg hgw] at h1
              by_cases hc : word.contains g
              · rw [if_pos hc] at h1
                exact hr3 h1
              · rw [if_neg hc] at h1
                exact hr1 h1

/-- Wrapper form: `is_legal_guess` for a duplicate-free length-5 guess
returns `ok true` exactly on the feedback `dFeed`. -/
theorem is_legal_guess_nodup (word guess f : List Char)
    (hw : word.length = 5) (hg : guess.length = 5) (hnd : guess.Nodup) :
    (is_legal_guess word guess f = .ok true ↔ f = dFeed word guess word) := by
  by_cases hf : guess.length = f.length
  · unfold is_legal_guess
    rw [if_neg (by omega), if_neg (by omega)]
    exact legalLoop_nodup word guess f word (fun _ => 0) (by omega)
      (by omega) hnd (by simp) (fun x hx => hx)
  · unfold is_legal_guess
    rw [if_neg (by omega : ¬word.length ≠ guess.length),
      if_pos (by omega : guess.length ≠ f.length)]
    constructor
    · intro h
      simp at h
    · intro h
      exfalso
      apply hf
      rw [h, dFeed_length word guess word (by omega)]

theorem lookupD_addToPartition : ∀ (acc : List (Feedback × List Word))
    (f f2 : Feedback) (w : Word),
    lookupD (addToPartition acc f w) f2 =
      if f2 = f then lookupD acc f2 ++ [w] else lookupD acc f2
  | [], f, f2, w => by
    by_cases h : f2 = f
    · simp [addToPartition, lookupD, h]
    · simp [addToPartition, lookupD, h]
      exact fun hh : f = f2 => h hh.symm
  | p :: ps, f, f2, w => by
    by_cases hp : p.1 = f
    · by_cases h : f2 = f
      · have hc : p.1 = f2 := by rw [hp, h]
        simp [addToPartition, if_pos hp, lookupD, hc, h]
      · have hc : ¬p.1 = f2 := fun hh => h (hh.symm.trans hp)
        simp [addToPartition, if_pos hp, lookupD, hc, h]
    · by_cases h2 : p.1 = f2
      · have hf2 : ¬f2 = f := fun hh => hp (h2.trans hh)
        simp [addToPartition, if_neg hp, lookupD, h2, hf2]
      · simp [addToPartition, if_neg hp, lookupD, h2]
        rcases lookupD_addToPartition ps f f2 w with h3
        by_cases h : f2 = f
        · simpa [h] using h3
        · simpa [h] using h3

/-- The bucket of feedback `f` collects exactly the answers evaluating to
`f`, in input order. -/
theorem partitionFold_lookupD (guess : Word) : ∀ (answers : List Word)
    (acc part : List (Feedback × List Word)) (f : Feedback),
    partitionFold guess answers acc = .ok part →
    lookupD part f = lookupD acc f ++
      answers.filter (fun a => decide (eval_guess guess a = .ok f))
  | [], acc, part, f, h => by
    simp only [partitionFold] at h
    injection h with h
    subst h
    simp
  | a :: rest, acc, part, f, h => by
    simp only [partitionFold] at h
    cases he : eval_guess guess a with
    | error e => simp [he] at h
    | ok fa =>
      simp only [he] at h
      have ih := partitionFold_lookupD guess rest (addToPartition acc fa a)
        part f h
      rw [ih, lookupD_addToPartition]
      by_cases hf : f = fa
      · subst hf
        simp [List.filter_cons, he]
      · have hne : ¬eval_guess guess a = .ok f := by
          rw [he]
          intro hh
          injection hh with hh2
          exact hf hh2.symm
        simp [List.filter_cons, hne, hf]

theorem addToPartition_keys_mem : ∀ (acc : List (Feedback × List Word))
    (f : Feedback) (w : Word), f ∈ acc.map Prod.fst →
    (addToPartition acc f w).map Prod.fst = acc.map Prod.fst
  | [], f, w, h => by simp at h
  | p :: ps, f, w, h => by
    by_cases hp : p.1 = f
    · simp [addToPartition, if_pos hp]
    · have hmem : f ∈ ps.map Prod.fst := by
        rcases List.mem_cons.mp h with h1 | h1
        · exact absurd h1.symm hp
        · exact h1
      simp [addToPartition, if_neg hp,
        addToPartition_keys_mem ps f w hmem]

theorem addToPartition_keys_not_mem : ∀ (acc : List (Feedback × List Word))
    (f : Feedback) (w : Word), f ∉ acc.map Prod.fst →
    (addToPartition acc f w).map Prod.fst = acc.map Prod.fst ++ [f]
  | [], f, w, _ => by simp [addToPartition]
  | p :: ps, f, w, h => by
    have hp : ¬p.1 = f := fun hh => h (by simp [hh])
    have hmem : f ∉ ps.map Prod.fst := fun hh => h (by simp [hh])
    simp [addToPartition, if_neg hp,
      addToPartition_keys_not_mem ps f w hmem]

theorem partitionFold_keys_nodup (guess : Word) : ∀ (answers : List Word)
    (acc part : List (Feedback × List Word)),
    (acc.map Prod.fst).Nodup → partitionFold guess answers acc = .ok part →
    (part.map Prod.fst).Nodup
  | [], acc, part, hnd, h => by
    simp only [partitionFold] at h
    injection h with h
    subst h
    exact hnd
  | a :: rest, acc, part, hnd, h => by
    simp only [partitionFold] at h
    cases he : eval_guess guess a with
    | error e => simp [he] at h
    | ok fa =>
      simp only [he] at h
      by_cases hmem : fa ∈ acc.map Prod.fst
      · exact partitionFold_keys_nodup guess rest _ part
          (by rw [addToPartition_keys_mem acc fa a hmem]; exact hnd) h
      · exact partitionFold_keys_nodup guess rest _ part
          (by
            rw [addToPartition_keys_not_mem acc fa a hmem]
            simp [List.nodup_append, hnd, hmem]) h

theorem lookupD_of_mem : ∀ (part : List (Feedback × List Word))
    (p : Feedback × List Word),
    (part.map Prod.fst).Nodup → p ∈ part → lookupD part p.1 = p.2
  | [], p, _, hmem => by simp at hmem
  | q :: part, p, hnd, hmem => by
    rcases List.mem_cons.mp hmem with h1 | h1
    · subst h1
      simp [lookupD]
    · have hq : q.1 ∉ part.map Prod.fst :=
        (List.nodup_cons.mp (by simpa using hnd)).1
      have hp1 : p.1 ∈ part.map Prod.fst := List.mem_map_of_mem Prod.fst h1
      have hne : ¬q.1 = p.1 := fun hh => hq (hh ▸ hp1)
      simp only [lookupD, if_neg hne]
      exact lookupD_of_mem part p (List.nodup_cons.mp (by simpa using hnd)).2 h1

theorem bucketsJoin_addToPartition : ∀ (acc : List (Feedback × List Word))
    (f : Feedback) (w : Word),
    List.Perm (bucketsJoin (addToPartition acc f w)) (bucketsJoin acc ++ [w])
  | [], f, w => by simp [addToPartition, bucketsJoin]
  | p :: ps, f, w => by
    by_cases hp : p.1 = f
    · simp only [addToPartition, if_pos hp, bucketsJoin, List.map_cons,
        List.flatten_cons]
      rw [List.append_assoc, List.append_assoc]
      exact List.Perm.append_left p.2 List.perm_append_comm
    · simp only [addToPartition, if_neg hp, bucketsJoin, List.map_cons,
        List.flatten_cons]
      rw [List.append_assoc]
      exact List.Perm.append_left p.2
        (by simpa [bucketsJoin] using bucketsJoin_addToPartition ps f w)

/-- The buckets of a partition are a permutation of the partitioned
answers (appended to whatever the accumulator already held). -/
theorem partitionFold_join (guess : Word) : ∀ (answers : List Word)
    (acc part : List (Feedback × List Word)),
    partitionFold guess answers acc = .ok part →
    List.Perm (bucketsJoin part) (bucketsJoin acc ++ answers)
  | [], acc, part, h => by
    simp only [partitionFold] at h
    injection h with h
    subst h
    simp
  | a :: rest, acc, part, h => by
    simp only [partitionFold] at h
    cases he : eval_guess guess a with
    | error e => simp [he] at h
    | ok fa =>
      simp only [he] at h
      have ih := partitionFold_join guess rest (addToPartition acc fa a) part h
      have hstep :=
        List.Perm.append_right rest (bucketsJoin_addToPartition acc fa a)
      have hall := ih.trans hstep
      rw [List.append_assoc, List.singleton_append] at hall
      exact hall

/-- With equal-length inputs of length at most 5 the partition fold never
fails. -/
theorem partitionFold_ok (guess : Word) (h5 : guess.length ≤ 5) :
    ∀ (answers : List Word) (acc : List (Feedback × List Word)),
    (∀ a ∈ answers, a.length = guess.length) →
    ∃ part, partitionFold guess answers acc = .ok part
  | [], acc, _ => ⟨acc, rfl⟩
  | a :: rest, acc, hlen => by
    have he := eval_guess_eq guess a (hlen a (by simp)).symm h5
    simp only [partitionFold, he]
    exact partitionFold_ok guess h5 rest _
      (fun x hx => hlen x (by simp [hx]))

theorem keyPairLe_iff_not_lt (x y : Nat × Nat) :
    keyPairLe x y ↔ ¬keyPairLt y x := by
  unfold keyPairLe keyPairLt
  omega

theorem keyPairLe_trans {x y z : Nat × Nat} (h1 : keyPairLe x y)
    (h2 : keyPairLe y z) : keyPairLe x z := by
  unfold keyPairLe at *
  omega

theorem keyPairLt_le {x y : Nat × Nat} (h : keyPairLt x y) : keyPairLe x y := by
  unfold keyPairLe keyPairLt at *
  omega

theorem keyPairLe_refl (x : Nat × Nat) : keyPairLe x x := by
  unfold keyPairLe
  omega

theorem firstMinBy_eq_none : ∀ l, firstMinBy l = none ↔ l = []
  | [] => by simp [firstMinBy]
  | x :: xs => by
    simp only [firstMinBy]
    cases h : firstMinBy xs with
    | none => simp
    | some y =>
      constructor
      · intro hh
        by_cases hlt : keyPairLt (sortKey y) (sortKey x) <;>
          simp [hlt] at hh
      · intro hh
        cases hh

/-- The head of the stable sort is the first minimal-key element. -/
theorem insertionSort_head?_firstMinBy :
    ∀ l, (List.insertionSort gcLe l).head? = firstMinBy l
  | [] => rfl
  | x :: xs => by
    rw [List.insertionSort]
    cases hs : List.insertionSort gcLe xs with
    | nil =>
      have hx : xs = [] := by
        have hlen := List.length_insertionSort gcLe xs
        rw [hs] at hlen
        exact List.length_eq_zero.mp hlen.symm
      subst hx
      simp [List.orderedInsert, firstMinBy]
    | cons m rest =>
      have hm : firstMinBy xs = some m := by
        rw [← insertionSort_head?_firstMinBy xs, hs]
        rfl
      simp only [List.orderedInsert, firstMinBy, hm]
      by_cases h : gcLe x m
      · rw [if_pos h, if_neg ((keyPairLe_iff_not_lt _ _).mp h)]
        rfl
      · have hlt : keyPairLt (sortKey m) (sortKey x) := by
          by_contra hc
          exact h ((keyPairLe_iff_not_lt _ _).mpr hc)
        rw [if_neg h, if_pos hlt]
        rfl

theorem firstMinBy_mem : ∀ (l : List (Word × List (Feedback × Nat))) (t),
    firstMinBy l = some t → t ∈ l
  | [], t, h => by cases h
  | x :: xs, t, h => by
    simp only [firstMinBy] at h
    cases hf : firstMinBy xs with
    | none =>
      simp only [hf] at h
      injection h with h
      simp [h.symm]
    | some y =>
      simp only [hf] at h
      by_cases hlt : keyPairLt (sortKey y) (sortKey x)
      · rw [if_pos hlt] at h
        injection h with h
        subst h
        exact List.mem_cons_of_mem x (firstMinBy_mem xs _ hf)
      · rw [if_neg hlt] at h
        injection h with h
        simp [h.symm]

theorem firstMinBy_min : ∀ (l : List (Word × List (Feedback × Nat))) (t),
    firstMinBy l = some t →
    ∀ x ∈ l, keyPairLe (sortKey t) (sortKey x)
  | [], t, h => by cases h
  | x :: xs, t, h => by
    simp only [firstMinBy] at h
    cases hf : firstMinBy xs with
    | none =>
      simp only [hf] at h
      injection h with h
      subst h
      have hxs : xs = [] := (firstMinBy_eq_none xs).mp hf
      subst hxs
      intro z hz
      rcases List.mem_cons.mp hz with h1 | h1
      · rw [h1]
        exact keyPairLe_refl _
      · simp at h1
    | some y =>
      simp only [hf] at h
      have ih := firstMinBy_min xs y hf
      by_cases hlt : keyPairLt (sortKey y) (sortKey x)
      · rw [if_pos hlt] at h
        injection h with h
        subst h
        intro z hz
        rcases List.mem_cons.mp hz with h1 | h1
        · rw [h1]
          exact keyPairLt_le hlt
        · exact ih z h1
      · rw [if_neg hlt] at h
        injection h with h
        subst h
        intro z hz
        rcases List.mem_cons.mp hz with h1 | h1
        · rw [h1]
          exact keyPairLe_refl _
        · exact keyPairLe_trans ((keyPairLe_iff_not_lt _ _).mpr hlt) (ih z h1)

theorem get_cardinalities_sorted (cands : List (Feedback × List Word)) :
    List.Pairwise descSize (get_cardinalities cands) :=
  List.sorted_insertionSort descSize _

theorem get_cardinalities_perm (cands : List (Feedback × List Word)) :
    List.Perm (get_cardinalities cands) (cands.map fun p => (p.1, p.2.length)) :=
  List.perm_insertionSort descSize _

theorem get_cardinalities_length (cands : List (Feedback × List Word)) :
    (get_cardinalities cands).length = cands.length := by
  unfold get_cardinalities
  rw [List.length_insertionSort, List.length_map]

/-- The selector returns exactly the first guess with minimal
`(worst bucket size, HIT count of the worst bucket)` key. -/
theorem select_best_firstMinBy (results : List (Word × List (Feedback × List Word)))
    (hres : results ≠ []) (hne : ∀ p ∈ results, p.2 ≠ []) :
    ∃ t, firstMinBy (gcCardinalities results) = some t ∧
      select_best results = .ok t.1 ∧
      t ∈ gcCardinalities results ∧
      (∀ x ∈ gcCardinalities results, keyPairLe (sortKey t) (sortKey x)) := by
  have hguard : (gcCardinalities results).any (fun t => t.2.isEmpty) = false := by
    rw [List.any_eq_false]
    intro t ht
    simp only [List.isEmpty_iff]
    obtain ⟨p, hp, hpt⟩ := List.mem_map.mp ht
    intro hemp
    apply hne p hp
    rw [← hpt] at hemp
    have hemp2 : get_cardinalities p.2 = [] := hemp
    have hl := get_cardinalities_length p.2
    rw [hemp2] at hl
    exact List.length_eq_zero.mp (by simpa using hl.symm)
  cases hsort : List.insertionSort gcLe (gcCardinalities results) with
  | nil =>
    exfalso
    have hlen := List.length_insertionSort gcLe (gcCardinalities results)
    rw [hsort] at hlen
    have : gcCardinalities results = [] :=
      List.length_eq_zero.mp hlen.symm
    unfold gcCardinalities at this
    exact hres (List.map_eq_nil_iff.mp this)
  | cons t rest =>
    have hfm : firstMinBy (gcCardinalities results) = some t := by
      rw [← insertionSort_head?_firstMinBy, hsort]
      rfl
    refine ⟨t, hfm, ?_, firstMinBy_mem _ t hfm, firstMinBy_min _ t hfm⟩
    unfold select_best select_sorted
    rw [hguard]
    rw [if_neg (by simp : ¬false = true)]
    rw [hsort]

/-! ### Characterizations of the fan-out and the selection -/

theorem mapPartitions_spec (answers : List Word) : ∀ (gs : List Word)
    (gcands : List (Word × List (Feedback × List Word))),
    mapPartitions answers gs = .ok gcands →
    gcands.map Prod.fst = gs ∧
      ∀ p ∈ gcands, partitionFold p.1 answers [] = .ok p.2
  | [], gcands, h => by
    simp only [mapPartitions] at h
    injection h with h
    subst h
    simp
  | g :: gs, gcands, h => by
    simp only [mapPartitions] at h
    cases h1 : get_hardest_response g answers with
    | error e => simp [h1] at h
    | ok p =>
      simp only [h1] at h
      cases h2 : mapPartitions answers gs with
      | error e => simp [h2] at h
      | ok ps =>
        simp only [h2] at h
        injection h with h
        subst h
        obtain ⟨ih1, ih2⟩ := mapPartitions_spec answers gs ps h2
        have hp : p.1 = g ∧ partitionFold p.1 answers [] = .ok p.2 := by
          unfold get_hardest_response at h1
          cases h3 : partitionFold g answers [] with
          | error e => simp [h3] at h1
          | ok part =>
            simp only [h3] at h1
            injection h1 with h1
            subst h1
            exact ⟨rfl, h3⟩
        refine ⟨by simp [hp.1, ih1], ?_⟩
        intro q hq
        rcases List.mem_cons.mp hq with h4 | h4
        · subst h4
          exact hp.2
        · exact ih2 q h4

theorem mapPartitions_ok (answers : List Word) : ∀ (gs : List Word),
    (∀ g ∈ gs, g.length ≤ 5 ∧ ∀ a ∈ answers, a.length = g.length) →
    ∃ gcands, mapPartitions answers gs = .ok gcands
  | [], _ => ⟨[], rfl⟩
  | g :: gs, h => by
    obtain ⟨part, hpart⟩ := partitionFold_ok g (h g (by simp)).1 answers []
      (h g (by simp)).2
    obtain ⟨ps, hps⟩ := mapPartitions_ok answers gs
      (fun x hx => h x (by simp [hx]))
    refine ⟨(g, part) :: ps, ?_⟩
    simp only [mapPartitions, get_hardest_response, hpart, hps]

/-- What a successful selection means: the chosen entry is a member of
`gc_cardinalities`, has minimal key, and a non-empty cardinalities list. -/
theorem select_sorted_spec (results : List (Word × List (Feedback × List Word)))
    (t : Word × List (Feedback × Nat))
    (h : select_sorted results = .ok t) :
    t ∈ gcCardinalities results ∧
      (∀ x ∈ gcCardinalities results, keyPairLe (sortKey t) (sortKey x)) ∧
      t.2 ≠ [] := by
  unfold select_sorted at h
  by_cases hg : (gcCardinalities results).any (fun t => t.2.isEmpty) = true
  · rw [if_pos hg] at h
    cases h
  · rw [if_neg hg] at h
    cases hsort : List.insertionSort gcLe (gcCardinalities results) with
    | nil =>
      simp only [hsort] at h
      cases h
    | cons m rest =>
      simp only [hsort] at h
      injection h with h
      subst h
      have hfm : firstMinBy (gcCardinalities results) = some m := by
        rw [← insertionSort_head?_firstMinBy, hsort]
        rfl
      refine ⟨firstMinBy_mem _ m hfm, firstMinBy_min _ m hfm, ?_⟩
      have hmem := firstMinBy_mem _ m hfm
      have hfalse : (gcCardinalities results).any (fun t => t.2.isEmpty) = false := by
        cases hx : (gcCardinalities results).any (fun t => t.2.isEmpty)
        · rfl
        · exact absurd hx hg
      have := List.any_eq_false.mp hfalse m hmem
      simpa using this

theorem lookupD_ne_nil_mem_keys : ∀ (part : List (Feedback × List Word))
    (f : Feedback), lookupD part f ≠ [] → ∃ p ∈ part, p.1 = f
  | [], f, h => absurd rfl h
  | q :: part, f, h => by
    by_cases hq : q.1 = f
    · exact ⟨q, by simp, hq⟩
    · simp only [lookupD, if_neg hq] at h
      obtain ⟨p, hp, hpf⟩ := lookupD_ne_nil_mem_keys part f h
      exact ⟨p, by simp [hp], hpf⟩

/-- Every bucket of a partition is at most as large as the first entry of
its sorted cardinalities list. -/
theorem bucket_le_head_card (part : List (Feedback × List Word))
    (c0 : Feedback × Nat) (cs : List (Feedback × Nat))
    (hc : get_cardinalities part = c0 :: cs) :
    ∀ p ∈ part, p.2.length ≤ c0.2 := by
  intro p hp
  have hperm := get_cardinalities_perm part
  have hmem : (p.1, p.2.length) ∈ get_cardinalities part :=
    hperm.mem_iff.mpr (List.mem_map_of_mem _ hp)
  rw [hc] at hmem
  rcases List.mem_cons.mp hmem with h1 | h1
  · rw [show p.2.length = (p.1, p.2.length).2 from rfl, h1]
  · have hpair := get_cardinalities_sorted part
    rw [hc] at hpair
    exact (List.pairwise_cons.mp hpair).1 _ h1

/-! ### Two-occurrence analysis (claim C5) -/

/-- Once the `seen` counter of a letter has reached its count in the
answer, the second pass leaves every position of that letter unchanged. -/
theorem pass2L_saturated (ans : List Char) (count : Char → Nat) (c : Char) :
    ∀ (gs rs : List Char) (seen : Char → Nat), count c ≤ seen c →
    ∀ k, gs.get? k = some c →
    ((pass2L ans count gs rs seen).1).get? k = rs.get? k
  | [], rs, seen, _, k, _ => rfl
  | _ :: _, [], seen, _, k, _ => rfl
  | g :: gs, r :: rs, seen, h, k, hk => by
    cases k with
    | zero =>
      have hg : g = c := by simpa using hk
      subst hg
      have hcond : ¬(¬r = 'g' ∧ ans.contains g = true ∧ seen g < count g) := by
        intro hh
        have := hh.2.2
        omega
      have hL : pass2L ans count (g :: gs) (r :: rs) seen =
          (r :: (pass2L ans count gs rs seen).1,
           (pass2L ans count gs rs seen).2) := by
        simp only [pass2L]
        rw [if_neg hcond]
      rw [hL]
      rfl
    | succ k =>
      have hk2 : gs.get? k = some c := by simpa using hk
      by_cases hcond : ¬r = 'g' ∧ ans.contains g = true ∧ seen g < count g
      · have hL : pass2L ans count (g :: gs) (r :: rs) seen =
            ('y' :: (pass2L ans count gs rs (bump seen g)).1,
             (pass2L ans count gs rs (bump seen g)).2) := by
          simp only [pass2L]
          rw [if_pos hcond]
        rw [hL]
        simp only [List.get?_cons_succ]
        exact pass2L_saturated ans count c gs rs (bump seen g)
          (by
            by_cases hcg : c = g
            · subst hcg
              simp only [bump, if_pos rfl]
              omega
            · simp only [bump, if_neg hcg]
              exact h) k hk2
      · have hL : pass2L ans count (g :: gs) (r :: rs) seen =
            (r :: (pass2L ans count gs rs seen).1,
             (pass2L ans count gs rs seen).2) := by
          simp only [pass2L]
          rw [if_neg hcond]
        rw [hL]
        simp only [List.get?_cons_succ]
        exact pass2L_saturated ans count c gs rs seen h k hk2

/-- With exactly one unconsumed occurrence available, the first
still-unmarked position of a letter becomes `'y'` and the later one keeps
its entry. -/
theorem pass2L_first_y (ans : List Char) (count : Char → Nat) (c : Char)
    (hcont : ans.contains c = true) (hcnt : count c = 1) :
    ∀ (i : Nat) (gs rs : List Char) (seen : Char → Nat) (j : Nat) (ri : Char),
    seen c = 0 → i < j →
    gs.get? i = some c → gs.get? j = some c →
    (∀ k, k < i → gs.get? k ≠ some c) →
    rs.get? i = some ri → ¬ri = 'g' →
    ((pass2L ans count gs rs seen).1).get? i = some 'y' ∧
    ((pass2L ans count gs rs seen).1).get? j = rs.get? j
  | 0, gs, rs, seen, j, ri, hseen, hij, hgi, hgj, _, hri, hrg => by
    cases gs with
    | nil => simp at hgi
    | cons g gs =>
      cases rs with
      | nil => simp at hri
      | cons r rs =>
        have hg : g = c := by simpa using hgi
        have hr : r = ri := by simpa using hri
        subst hg
        subst hr
        have hcond : ¬r = 'g' ∧ ans.contains g = true ∧ seen g < count g :=
          ⟨hrg, hcont, by omega⟩
        have hL : pass2L ans count (g :: gs) (r :: rs) seen =
            ('y' :: (pass2L ans count gs rs (bump seen g)).1,
             (pass2L ans count gs rs (bump seen g)).2) := by
          simp only [pass2L]
          rw [if_pos hcond]
        rw [hL]
        obtain ⟨j2, hj2⟩ : ∃ j2, j = j2 + 1 := ⟨j - 1, by omega⟩
        subst hj2
        have hgj2 : gs.get? j2 = some g := by simpa using hgj
        refine ⟨rfl, ?_⟩
        simp only [List.get?_cons_succ]
        exact pass2L_saturated ans count g gs rs (bump seen g)
          (by simp [bump, hcnt, hseen]) j2 hgj2
  | i + 1, gs, rs, seen, j, ri, hseen, hij, hgi, hgj, hfirst, hri, hrg => by
    cases gs with
    | nil => simp at hgi
    | cons g gs =>
      cases rs with
      | nil => simp at hri
      | cons r rs =>
        have hgc : ¬g = c := by
          intro hh
          exact hfirst 0 (by omega) (by simp [hh])
        obtain ⟨j2, hj2⟩ : ∃ j2, j = j2 + 1 := ⟨j - 1, by omega⟩
        subst hj2
        have hgi2 : gs.get? i = some c := by simpa using hgi
        have hgj2 : gs.get? j2 = some c := by simpa using hgj
        have hri2 : rs.get? i = some ri := by simpa using hri
        have hfirst2 : ∀ k, k < i → gs.get? k ≠ some c := by
          intro k hk
          have := hfirst (k + 1) (by omega)
          simpa using this
        by_cases hcond : ¬r = 'g' ∧ ans.contains g = true ∧ seen g < count g
        · have hL : pass2L ans count (g :: gs) (r :: rs) seen =
              ('y' :: (pass2L ans count gs rs (bump seen g)).1,
               (pass2L ans count gs rs (bump seen g)).2) := by
            simp only [pass2L]
            rw [if_pos hcond]
          rw [hL]
          simp only [List.get?_cons_succ]
          exact pass2L_first_y ans count c hcont hcnt i gs rs (bump seen g)
            j2 ri (by
              simp only [bump, if_neg (fun hh : c = g => hgc hh.symm)]
              exact hseen)
            (by omega) hgi2 hgj2 hfirst2 hri2 hrg
        · have hL : pass2L ans count (g :: gs) (r :: rs) seen =
              (r :: (pass2L ans count gs rs seen).1,
               (pass2L ans count gs rs seen).2) := by
            simp only [pass2L]
            rw [if_neg hcond]
          rw [hL]
          simp only [List.get?_cons_succ]
          exact pass2L_first_y ans count c hcont hcnt i gs rs seen j2 ri
            hseen (by omega) hgi2 hgj2 hfirst2 hri2 hrg

/-- A positional match contributes to `mcount`. -/
theorem mcount_pos : ∀ (gs as : List Char) (i : Nat) (c : Char),
    gs.get? i = some c → as.get? i = some c → 1 ≤ mcount gs as c
  | [], _, i, _, hg, _ => by simp at hg
  | _ :: _, [], i, _, _, ha => by simp at ha
  | g :: gs, a :: as, 0, c, hg, ha => by
    have h1 : g = c := by simpa using hg
    have h2 : a = c := by simpa using ha
    subst h1
    subst h2
    simp [mcount]
  | g :: gs, a :: as, i + 1, c, hg, ha => by
    have h1 : gs.get? i = some c := by simpa using hg
    have h2 : as.get? i = some c := by simpa using ha
    have := mcount_pos gs as i c h1 h2
    simp only [mcount]
    omega

/-- Two distinct positions holding the same letter force a letter count of
at least two. -/
theorem count_ge_two : ∀ (a : List Char) (i j : Nat) (c : Char),
    i < j → a.get? i = some c → a.get? j = some c → 2 ≤ a.count c
  | [], _, _, _, _, hi, _ => by simp at hi
  | x :: xs, 0, j, c, hij, hi, hj => by
    have hx : x = c := by simpa using hi
    subst hx
    obtain ⟨j2, hj2⟩ : ∃ j2, j = j2 + 1 := ⟨j - 1, by omega⟩
    subst hj2
    have hmem : x ∈ xs := List.get?_mem (by simpa using hj)
    simp [List.count_cons]
    exact hmem
  | x :: xs, i + 1, j, c, hij, hi, hj => by
    obtain ⟨j2, hj2⟩ : ∃ j2, j = j2 + 1 := ⟨j - 1, by omega⟩
    subst hj2
    have := count_ge_two xs i j2 c (by omega) (by simpa using hi)
      (by simpa using hj)
    simp only [List.count_cons]
    omega

/-! ### Round-step helpers -/

theorem find?_keys : ∀ (l : List (Word × List (Feedback × List Word)))
    (w : Word), w ∈ l.map Prod.fst →
    ∃ p, l.find? (fun q => q.1 == w) = some p ∧ p.1 = w ∧ p ∈ l
  | [], w, h => by simp at h
  | q :: l, w, h => by
    by_cases hq : q.1 = w
    · refine ⟨q, ?_, hq, by simp⟩
      rw [List.find?_cons_of_pos _ (by simp [hq])]
    · have hmem : w ∈ l.map Prod.fst := by
        have h2 : w ∈ q.1 :: l.map Prod.fst := by
          rw [List.map_cons] at h
          exact h
        rcases List.mem_cons.mp h2 with h1 | h1
        · exact absurd h1.symm hq
        · exact h1
      obtain ⟨p, h1, h2, h3⟩ := find?_keys l w hmem
      refine ⟨p, ?_, h2, by simp [h3]⟩
      rw [List.find?_cons_of_neg _ (by simp [hq]), h1]

/-- A forced feedback consistent with no remaining candidate gives an
empty bucket: the round prints `(best, feedback, 0)` and then raises the
no-legal-answers exception. -/
theorem round_step_absent (s : RoundState)
    (gcands : List (Word × List (Feedback × List Word)))
    (t : Word × List (Feedback × Nat)) (c : Feedback) (cs : List Feedback)
    (hclues : s.clues = c :: cs)
    (hg : get_candidates (guess_pool s) s.legalAnswers = .ok gcands)
    (hs : select_sorted gcands = .ok t)
    (habs : ∀ a ∈ s.legalAnswers, eval_guess t.1 a ≠ .ok c) :
    round_step s = .ok ((t.1, c, 0), .error .noLegalAnswers) := by
  have hspec := select_sorted_spec gcands t hs
  obtain ⟨p, hp, hpt⟩ := List.mem_map.mp hspec.1
  have hkeys : t.1 ∈ gcands.map Prod.fst := by
    rw [show t.1 = p.1 by rw [← hpt]]
    exact List.mem_map_of_mem _ hp
  obtain ⟨gp, hfind, hgp1, hgpmem⟩ := find?_keys gcands t.1 hkeys
  have hmp := (mapPartitions_spec s.legalAnswers (guess_pool s) gcands hg).2
    gp hgpmem
  have hlk := partitionFold_lookupD gp.1 s.legalAnswers [] gp.2 c hmp
  have hfilter : s.legalAnswers.filter
      (fun a => decide (eval_guess gp.1 a = .ok c)) = [] := by
    rw [List.filter_eq_nil_iff]
    intro a ha
    simp only [decide_eq_true_eq]
    rw [hgp1]
    exact habs a ha
  have hlk2 : lookupD gp.2 c = [] := by
    rw [hlk, hfilter]
    rfl
  simp only [round_step, hg, hs, pick_response, hclues, hfind, hlk2]
  simp

/-! ### Symbol-validity helpers (claim C10) -/

theorem p1list_mem : ∀ (gs as rs : List Char) (x : Char),
    x ∈ p1list gs as rs → x = 'g' ∨ x ∈ rs
  | [], _, rs, x, h => Or.inr h
  | _ :: _, [], rs, x, h => Or.inr h
  | _ :: _, _ :: _, [], x, h => by simp [p1list] at h
  | g :: gs, a :: as, r :: rs, x, h => by
    rcases List.mem_cons.mp h with h1 | h1
    · by_cases hga : g = a
      · rw [if_pos hga] at h1
        exact Or.inl h1
      · rw [if_neg hga] at h1
        exact Or.inr (by simp [h1])
    · rcases p1list_mem gs as rs x h1 with h2 | h2
      · exact Or.inl h2
      · exact Or.inr (by simp [h2])

theorem pass2L_mem (ans : List Char) (count : Char → Nat) :
    ∀ (gs rs : List Char) (seen : Char → Nat) (x : Char),
    x ∈ (pass2L ans count gs rs seen).1 → x = 'y' ∨ x ∈ rs
  | [], rs, seen, x, h => Or.inr h
  | _ :: _, [], seen, x, h => Or.inr h
  | g :: gs, r :: rs, seen, x, h => by
    by_cases hcond : ¬r = 'g' ∧ ans.contains g = true ∧ seen g < count g
    · have hL : pass2L ans count (g :: gs) (r :: rs) seen =
          ('y' :: (pass2L ans count gs rs (bump seen g)).1,
           (pass2L ans count gs rs (bump seen g)).2) := by
        simp only [pass2L]
        rw [if_pos hcond]
      rw [hL] at h
      rcases List.mem_cons.mp h with h1 | h1
      · exact Or.inl h1
      · rcases pass2L_mem ans count gs rs (bump seen g) x h1 with h2 | h2
        · exact Or.inl h2
        · exact Or.inr (by simp [h2])
    · have hL : pass2L ans count (g :: gs) (r :: rs) seen =
          (r :: (pass2L ans count gs rs seen).1,
           (pass2L ans count gs rs seen).2) := by
        simp only [pass2L]
        rw [if_neg hcond]
      rw [hL] at h
      rcases List.mem_cons.mp h with h1 | h1
      · exact Or.inr (by simp [h1])
      · rcases pass2L_mem ans count gs rs seen x h1 with h2 | h2
        · exact Or.inl h2
        · exact Or.inr (by simp [h2])

/-- On feedback made of valid symbols and aligned lengths, the legality
loop always returns a boolean (it never meets the invalid-symbol
branch). -/
theorem legalLoop_total (word : List Char) (count : Char → Nat) :
    ∀ (gs rs ws : List Char) (seen : Char → Nat),
    gs.length = rs.length → gs.length = ws.length →
    (∀ x ∈ rs, x = 'g' ∨ x = 'y' ∨ x = 'r') →
    ∃ b, legalLoop word count seen gs rs ws = .ok b
  | [], rs, ws, seen, _, _, _ => ⟨true, rfl⟩
  | g :: gs, [], ws, seen, hlen, _, _ => by simp at hlen
  | g :: gs, r :: rs, [], seen, _, hlen2, _ => by simp at hlen2
  | g :: gs, r :: rs, w :: ws, seen, hlen, hlen2, hval => by
    simp only [List.length_cons] at hlen hlen2
    have htail : ∀ x ∈ rs, x = 'g' ∨ x = 'y' ∨ x = 'r' :=
      fun x hx => hval x (by simp [hx])
    rcases hval r (by simp) with hr | hr | hr
    · subst hr
      simp only [legalLoop, reduceIte]
      rw [if_neg (show ¬('g' : Char) = 'r' by decide)]
      by_cases hcond : w ≠ g ∨ seen g = count g
      · rw [if_pos hcond]
        exact ⟨false, rfl⟩
      · rw [if_neg hcond]
        exact legalLoop_total word count gs rs ws (bump seen g)
          (by omega) (by omega) htail
    · subst hr
      simp only [legalLoop, reduceIte]
      rw [if_neg (show ¬('y' : Char) = 'r' by decide),
        if_neg (show ¬('y' : Char) = 'g' by decide)]
      by_cases hcond : w = g ∨ seen g = count g
      · rw [if_pos hcond]
        exact ⟨false, rfl⟩
      · rw [if_neg hcond]
        exact legalLoop_total word count gs rs ws seen
          (by omega) (by omega) htail
    · subst hr
      simp only [legalLoop, reduceIte]
      by_cases hcond : word.contains g
      · rw [if_pos hcond]
        exact ⟨false, rfl⟩
      · rw [if_neg hcond]
        exact legalLoop_total word count gs rs ws seen
          (by omega) (by omega) htail

/-! ## Claim theorems -/

/-- **C1** (counterexample). The claimed evaluator/checker equivalence
fails: for the 5-letter words `bcdea`/`aaxyz` and feedback `yyrrr`,
`is_legal_guess` accepts although `eval_guess` produces `yrrrr` (the
checker never consumes an occurrence in its `'y'` branch). -/
theorem C1_counterexample :
    ¬(eval_guess "aaxyz".toList "bcdea".toList = .ok "yyrrr".toList ↔
      is_legal_guess "bcdea".toList "aaxyz".toList "yyrrr".toList =
        .ok true) := by
  decide

/-- **C1** (amended): for length-5 words and a guess without repeated
letters, `eval_guess g a = ok f` holds iff `is_legal_guess a g f`
returns true. -/
theorem C1_equiv_nodup (a g f : List Char) (ha : a.length = 5)
    (hg : g.length = 5) (hnd : g.Nodup) :
    eval_guess g a = .ok f ↔ is_legal_guess a g f = .ok true := by
  rw [eval_guess_nodup g a hg ha hnd, is_legal_guess_nodup a g f ha hg hnd]
  constructor
  · intro h
    injection h with h
    exact h.symm
  · intro h
    rw [h]

/-- **C1** witness: the amended equivalence at a concrete instance. -/
theorem C1_witness :
    "crane".toList.Nodup ∧
      (eval_guess "crane".toList "abcde".toList = .ok "yryrg".toList ↔
        is_legal_guess "abcde".toList "crane".toList "yryrg".toList =
          .ok true) :=
  ⟨by decide, C1_equiv_nodup "abcde".toList "crane".toList "yryrg".toList
    (by decide) (by decide) (by decide)⟩

/-- **C2** (counterexample). On the real partitions of guesses `aaaaa`,
`bbbbb` against answers `aaaaa`, `bbbbb`, the code selects `bbbbb`
(ascending HIT count, stable input-order ties) while the order stated in
the claim (descending HIT count, lexicographic ties) selects `aaaaa`. -/
theorem C2_counterexample :
    get_candidates ["aaaaa".toList, "bbbbb".toList]
        ["aaaaa".toList, "bbbbb".toList] = .ok selCex ∧
      select_best selCex = .ok "bbbbb".toList ∧
      select_best_claimed selCex = some "aaaaa".toList ∧
      "bbbbb".toList ≠ "aaaaa".toList := by
  refine ⟨by decide, by decide, by decide, by decide⟩

/-- **C2** (amended): the selector returns the first guess under
ascending largest-bucket size, ties broken by ASCENDING HIT count of the
largest bucket's feedback and then by input order (stability of the
sort); within one guess the (feedback, size) list is ranked by descending
bucket size with ties kept in first-appearance order (a permutation of
the buckets, sorted, with no secondary key). -/
theorem C2_selector (results : List (Word × List (Feedback × List Word)))
    (hres : results ≠ []) (hne : ∀ p ∈ results, p.2 ≠ []) :
    (∃ t, firstMinBy (gcCardinalities results) = some t ∧
      select_best results = .ok t.1 ∧ t ∈ gcCardinalities results ∧
      ∀ x ∈ gcCardinalities results, keyPairLe (sortKey t) (sortKey x)) ∧
    (∀ cands, List.Pairwise descSize (get_cardinalities cands) ∧
      List.Perm (get_cardinalities cands)
        (cands.map fun p => (p.1, p.2.length))) :=
  ⟨select_best_firstMinBy results hres hne,
   fun cands => ⟨get_cardinalities_sorted cands, get_cardinalities_perm cands⟩⟩

/-- **C2** witness. -/
theorem C2_witness :
    selCex ≠ [] ∧ (∀ p ∈ selCex, p.2 ≠ []) ∧
      (∃ t, firstMinBy (gcCardinalities selCex) = some t ∧
        select_best selCex = .ok t.1 ∧ t ∈ gcCardinalities selCex ∧
        ∀ x ∈ gcCardinalities selCex, keyPairLe (sortKey t) (sortKey x)) :=
  ⟨by decide, by decide, (C2_selector selCex (by decide) (by decide)).1⟩

/-- **C3** (counterexample). A forced feedback absent from the chosen
guess's partition is reported — and then the loop DOES fail: the round
raises the no-legal-answers exception instead of continuing. -/
theorem C3_counterexample :
    round_step C3state =
      .ok (("aaaaa".toList, "yyyyy".toList, 0), .error .noLegalAnswers) ∧
    ∀ (r : Report) (s2 : RoundState), round_step C3state ≠ .ok (r, .ok s2) := by
  refine ⟨by decide, ?_⟩
  intro r s2 h
  rw [(by decide : round_step C3state =
    .ok (("aaaaa".toList, "yyyyy".toList, 0), .error .noLegalAnswers))] at h
  injection h with h
  have h2 := congrArg Prod.snd h
  simp at h2

/-- **C3** (amended): a forced feedback absent from the chosen guess's
partition of the current candidate set is reported as
`(guess, feedback, 0)` — the defaultdict lookup itself raises nothing —
and the round then halts with the no-legal-answers error rather than
continuing. -/
theorem C3_reported_then_error (s : RoundState)
    (gcands : List (Word × List (Feedback × List Word)))
    (t : Word × List (Feedback × Nat)) (c : Feedback) (cs : List Feedback)
    (hclues : s.clues = c :: cs)
    (hg : get_candidates (guess_pool s) s.legalAnswers = .ok gcands)
    (hs : select_sorted gcands = .ok t)
    (habs : ∀ a ∈ s.legalAnswers, eval_guess t.1 a ≠ .ok c) :
    round_step s = .ok ((t.1, c, 0), .error .noLegalAnswers) :=
  round_step_absent s gcands t c cs hclues hg hs habs

/-- **C3** witness. -/
theorem C3_witness :
    round_step
      { forcedGuesses := [], clues := ["yyyyy".toList],
        legalAnswers := ["aaaaa".toList, "bbbbb".toList],
        legalGuesses := ["aaaaa".toList, "bbbbb".toList] } =
      .ok (("bbbbb".toList, "yyyyy".toList, 0), .error .noLegalAnswers) :=
  C3_reported_then_error _ selCex
    ("bbbbb".toList, [("rrrrr".toList, 1), ("ggggg".toList, 1)])
    "yyyyy".toList [] rfl (by decide) (by decide) (by decide)

/-- **C4** (counterexample). At equal length 3 the evaluator succeeds but
returns five symbols (the result buffer is hard-coded to `["r"] * 5`),
not three; at equal length 6 it fails with an index error rather than
succeeding. -/
theorem C4_counterexample :
    eval_guess "abc".toList "abc".toList = .ok "gggrr".toList ∧
    "gggrr".toList.length ≠ "abc".toList.length ∧
    "aabcde".toList.length = "bcdefa".toList.length ∧
    eval_guess "aabcde".toList "bcdefa".toList = .error .indexError := by
  refine ⟨by decide, by decide, by decide, by decide⟩

/-- **C4** (amended): the length-mismatch error is raised exactly when
the input lengths differ, and at the reference length 5 the evaluator
succeeds with a feedback of exactly 5 symbols. -/
theorem C4_length_behaviour :
    (∀ g a : List Char,
      eval_guess g a = .error .lengthMismatch ↔ g.length ≠ a.length) ∧
    (∀ g a : List Char, g.length = 5 → a.length = 5 →
      ∃ f, eval_guess g a = .ok f ∧ f.length = 5) := by
  refine ⟨eval_guess_lengthMismatch_iff, ?_⟩
  intro g a hg ha
  refine ⟨_, eval_guess_eq g a (by omega) (by omega), ?_⟩
  rw [pass2L_length, p1list_length]
  simp

/-- **C4** witness. -/
theorem C4_witness :
    ∃ f, eval_guess "slate".toList "crane".toList = .ok f ∧ f.length = 5 :=
  C4_length_behaviour.2 "slate".toList "crane".toList (by decide) (by decide)

/-- **C5** (counterexample). At equal length 6 — answer with one `a`,
guess with two — the evaluator raises an index error instead of marking
the two occurrences (its result buffer is hard-coded to length 5). -/
theorem C5_counterexample :
    "aabcde".toList.length = "bcdeaf".toList.length ∧
    "aabcde".toList.get? 0 = some 'a' ∧
    "aabcde".toList.get? 1 = some 'a' ∧
    "bcdeaf".toList.count 'a' = 1 ∧
    eval_guess "aabcde".toList "bcdeaf".toList = .error .indexError := by
  refine ⟨by decide, by decide, by decide, by decide, by decide⟩

/-- **C5** (amended): for equal-length inputs of length at most 5, a
letter occurring once in the answer and exactly twice in the guess (at
positions `i < j`) receives exactly one HIT/PRESENT mark: HIT at a
correctly placed occurrence with MISS at the other, else PRESENT at the
first occurrence and MISS at the second; in particular
`eval_guess "sheep" "abide"` is `rryrr`. -/
theorem C5_two_occurrences :
    (∀ (g a : List Char) (i j : Nat) (c : Char),
      g.length = a.length → g.length ≤ 5 → i < j → j < g.length →
      g.get? i = some c → g.get? j = some c →
      (∀ k, g.get? k = some c → k = i ∨ k = j) →
      a.count c = 1 →
      ∃ f, eval_guess g a = .ok f ∧
        (a.get? i = some c → f.get? i = some 'g' ∧ f.get? j = some 'r') ∧
        (a.get? j = some c → f.get? j = some 'g' ∧ f.get? i = some 'r') ∧
        (a.get? i ≠ some c → a.get? j ≠ some c →
          f.get? i = some 'y' ∧ f.get? j = some 'r')) ∧
    eval_guess "sheep".toList "abide".toList = .ok "rryrr".toList := by
  constructor
  · intro g a i j c hlen h5 hij hjlen hgi hgj honly hcnt
    have hilen : i < g.length := by omega
    have hia : i < a.length := by omega
    have hja : j < a.length := by omega
    have hrepi : (List.replicate 5 'r').get? i = some 'r' := by
      rw [List.get?_eq_getElem?, List.getElem?_replicate,
        if_pos (by omega : i < 5)]
    have hrepj : (List.replicate 5 'r').get? j = some 'r' := by
      rw [List.get?_eq_getElem?, List.getElem?_replicate,
        if_pos (by omega : j < 5)]
    have hai := List.get?_eq_get hia
    have haj := List.get?_eq_get hja
    have hp1i := p1list_get? g a (List.replicate 5 'r') i c
      (a.get ⟨i, hia⟩) 'r' hgi hai hrepi
    have hp1j := p1list_get? g a (List.replicate 5 'r') j c
      (a.get ⟨j, hja⟩) 'r' hgj haj hrepj
    refine ⟨_, eval_guess_eq g a hlen h5, ?_, ?_, ?_⟩
    · intro hcase
      have haival : a.get ⟨i, hia⟩ = c := by
        have h2 := hai.symm.trans hcase
        exact Option.some.inj h2
      have hajval : a.get ⟨j, hja⟩ ≠ c := by
        intro hh
        have : a.get? j = some c := by rw [haj, hh]
        have := count_ge_two a i j c hij hcase this
        omega
      have hsat : a.count c ≤ mcount g a c := by
        have := mcount_pos g a i c hgi hcase
        omega
      constructor
      · rw [pass2L_saturated a (fun x => a.count x) c g _ _ hsat i hgi, hp1i,
          if_pos haival.symm]
      · rw [pass2L_saturated a (fun x => a.count x) c g _ _ hsat j hgj, hp1j,
          if_neg (fun hh : c = a.get ⟨j, hja⟩ => hajval hh.symm)]
    · intro hcase
      have hajval : a.get ⟨j, hja⟩ = c := by
        have h2 := haj.symm.trans hcase
        exact Option.some.inj h2
      have haival : a.get ⟨i, hia⟩ ≠ c := by
        intro hh
        have : a.get? i = some c := by rw [hai, hh]
        have := count_ge_two a i j c hij this hcase
        omega
      have hsat : a.count c ≤ mcount g a c := by
        have := mcount_pos g a j c hgj hcase
        omega
      constructor
      · rw [pass2L_saturated a (fun x => a.count x) c g _ _ hsat j hgj, hp1j,
          if_pos hajval.symm]
      · rw [pass2L_saturated a (fun x => a.count x) c g _ _ hsat i hgi, hp1i,
          if_neg (fun hh : c = a.get ⟨i, hia⟩ => haival hh.symm)]
    · intro hne_i hne_j
      have haival : a.get ⟨i, hia⟩ ≠ c := by
        intro hh
        exact hne_i (by rw [hai, hh])
      have hajval : a.get ⟨j, hja⟩ ≠ c := by
        intro hh
        exact hne_j (by rw [haj, hh])
      have hm0 : mcount g a c = 0 := by
        apply mcount_eq_zero
        intro p hp hpc
        obtain ⟨k, hk1, hk2⟩ := mem_zip_exists_get? _ _ p hp
        rw [hpc] at hk1
        intro hp2c
        rw [hp2c] at hk2
        rcases honly k hk1 with hk | hk
        · subst hk
          exact hne_i hk2
        · subst hk
          exact hne_j hk2
      have hcont : a.contains c = true := by
        have : c ∈ a := List.count_pos_iff.mp (by omega)
        simpa using this
      have hp1i2 : (p1list g a (List.replicate 5 'r')).get? i = some 'r' := by
        rw [hp1i, if_neg (fun hh : c = a.get ⟨i, hia⟩ => haival hh.symm)]
      have hfirst : ∀ k, k < i → g.get? k ≠ some c := by
        intro k hk hcontra
        rcases honly k hcontra with hh | hh <;> omega
      have hfy := pass2L_first_y a (fun x => a.count x) c hcont hcnt i g
        (p1list g a (List.replicate 5 'r')) (fun x => mcount g a x) j 'r'
        hm0 hij hgi hgj hfirst hp1i2 (by decide)
      refine ⟨hfy.1, ?_⟩
      rw [hfy.2, hp1j,
        if_neg (fun hh : c = a.get ⟨j, hja⟩ => hajval hh.symm)]
  · decide

/-- **C5** witness: the two `e`s of `sheep` against the single `e` of
`abide`. -/
theorem C5_witness :
    ∃ f, eval_guess "sheep".toList "abide".toList = .ok f ∧
      ("abide".toList.get? 2 = some 'e' →
        f.get? 2 = some 'g' ∧ f.get? 3 = some 'r') ∧
      ("abide".toList.get? 3 = some 'e' →
        f.get? 3 = some 'g' ∧ f.get? 2 = some 'r') ∧
      ("abide".toList.get? 2 ≠ some 'e' → "abide".toList.get? 3 ≠ some 'e' →
        f.get? 2 = some 'y' ∧ f.get? 3 = some 'r') :=
  C5_two_occurrences.1 "sheep".toList "abide".toList 2 3 'e' (by decide)
    (by decide) (by decide) (by decide) (by decide) (by decide)
    (by
      intro k hk
      have hk5 : k < 5 := by
        by_contra hge
        rw [List.get?_eq_none.mpr (by simp; omega)] at hk
        cases hk
      interval_cases k <;> revert hk <;> decide)
    (by decide)

/-- **C6** (counterexample). The claim quantifies over every guess and
candidate set of equal-length words, but at equal length 6 the
evaluator's hard-coded 5-slot result buffer raises an index error inside
the partition fold, so `partition(g, C)` produces no buckets at all for
a non-empty `C` — there is no bucket list whose union equals `C`. -/
theorem C6_counterexample :
    (∀ a ∈ ["abides".toList], a.length = "sheeps".toList.length) ∧
    ["abides".toList] ≠ ([] : List Word) ∧
    get_hardest_response "sheeps".toList ["abides".toList] =
      .error .indexError ∧
    ∀ part, get_hardest_response "sheeps".toList ["abides".toList] ≠
      .ok ("sheeps".toList, part) := by
  refine ⟨by decide, by decide, by decide, ?_⟩
  intro part h
  have he : get_hardest_response "sheeps".toList ["abides".toList] =
      .error .indexError := by decide
  rw [he] at h
  cases h

/-- **C6** (amended): for a guess of length at most 5 and candidates of
the guess's length, the partition succeeds and groups the candidates
into buckets that are exactly the input-order filters by feedback —
pairwise disjoint, jointly a permutation of the input, with no duplicate
feedback keys; at equal lengths of 6 or more with a non-empty candidate
set the partition raises an index error instead (see the
counterexample). -/
theorem C6_partition (g : Word) (C : List Word)
    (hlen : ∀ a ∈ C, a.length = g.length) (h5 : g.length ≤ 5) :
    ∃ part, get_hardest_response g C = .ok (g, part) ∧
      (part.map Prod.fst).Nodup ∧
      (∀ p ∈ part,
        p.2 = C.filter fun a => decide (eval_guess g a = .ok p.1)) ∧
      List.Perm (bucketsJoin part) C ∧
      (∀ p ∈ part, ∀ q ∈ part, p.1 ≠ q.1 → ∀ w ∈ p.2, w ∉ q.2) := by
  obtain ⟨part, hpart⟩ := partitionFold_ok g h5 C [] hlen
  have hnd := partitionFold_keys_nodup g C [] part (by simp) hpart
  have hbucket : ∀ p ∈ part,
      p.2 = C.filter fun a => decide (eval_guess g a = .ok p.1) := by
    intro p hp
    have h1 := lookupD_of_mem part p hnd hp
    have h2 := partitionFold_lookupD g C [] part p.1 hpart
    rw [h1] at h2
    simpa [lookupD] using h2
  refine ⟨part, ?_, hnd, hbucket, ?_, ?_⟩
  · simp only [get_hardest_response, hpart]
  · have := partitionFold_join g C [] part hpart
    simpa [bucketsJoin] using this
  · intro p hp q hq hne w hwp hwq
    rw [hbucket p hp] at hwp
    rw [hbucket q hq] at hwq
    have e1 := List.of_mem_filter hwp
    have e2 := List.of_mem_filter hwq
    simp only [decide_eq_true_eq] at e1 e2
    apply hne
    exact Except.ok.inj (e1.symm.trans e2)

/-- **C6** witness. -/
theorem C6_witness :
    (∀ a ∈ ["abide".toList, "sheep".toList, "apple".toList],
      a.length = "apple".toList.length) ∧
    ∃ part, get_hardest_response "apple".toList
        ["abide".toList, "sheep".toList, "apple".toList] =
        .ok ("apple".toList, part) ∧
      (part.map Prod.fst).Nodup ∧
      (∀ p ∈ part, p.2 = ["abide".toList, "sheep".toList,
        "apple".toList].filter fun a =>
          decide (eval_guess "apple".toList a = .ok p.1)) ∧
      List.Perm (bucketsJoin part)
        ["abide".toList, "sheep".toList, "apple".toList] ∧
      (∀ p ∈ part, ∀ q ∈ part, p.1 ≠ q.1 → ∀ w ∈ p.2, w ∉ q.2) :=
  ⟨by decide, C6_partition "apple".toList
    ["abide".toList, "sheep".toList, "apple".toList] (by decide) (by decide)⟩

/-- **C7**: a forced feedback inconsistent with every remaining candidate
(empty bucket) halts the round loop with a fatal error; the emitted log
names the offending round's guess and feedback, and no further round is
attempted. -/
theorem C7_contradiction_halts (n : Nat) (s : RoundState)
    (gcands : List (Word × List (Feedback × List Word)))
    (t : Word × List (Feedback × Nat)) (c : Feedback) (cs : List Feedback)
    (hclues : s.clues = c :: cs)
    (hg : get_candidates (guess_pool s) s.legalAnswers = .ok gcands)
    (hs : select_sorted gcands = .ok t)
    (habs : ∀ a ∈ s.legalAnswers, eval_guess t.1 a ≠ .ok c) :
    run_loop (n + 1) s = .failedAfter [(t.1, c, 0)] .noLegalAnswers := by
  have hstep := round_step_absent s gcands t c cs hclues hg hs habs
  simp only [run_loop, hstep]

/-- **C7** witness. -/
theorem C7_witness :
    run_loop 1
      { forcedGuesses := [], clues := ["rrrrr".toList],
        legalAnswers := ["ccccc".toList],
        legalGuesses := ["ccccc".toList] } =
      .failedAfter [("ccccc".toList, "rrrrr".toList, 0)] .noLegalAnswers :=
  C7_contradiction_halts 0 _
    [("ccccc".toList, [("ggggg".toList, ["ccccc".toList])])]
    ("ccccc".toList, [("ggggg".toList, 1)]) "rrrrr".toList [] rfl
    (by decide) (by decide) (by decide)

/-- **C8** (counterexample). At equal length 6 the evaluator raises an
index error, so there is no feedback whose HIT count could match. -/
theorem C8_counterexample :
    "radios".toList.length = "louder".toList.length ∧
    eval_guess "radios".toList "louder".toList = .error .indexError ∧
    ∀ f : List Char, eval_guess "radios".toList "louder".toList ≠ .ok f := by
  refine ⟨by decide, by decide, ?_⟩
  intro f h
  rw [(by decide : eval_guess "radios".toList "louder".toList =
    .error .indexError)] at h
  simp at h

/-- **C8** (amended): for equal-length inputs of length at most 5 the
evaluator succeeds and its feedback has exactly as many `'g'` symbols as
there are positions where guess and answer agree. -/
theorem C8_hit_count (g a : List Char) (hlen : g.length = a.length)
    (h5 : g.length ≤ 5) :
    ∃ f, eval_guess g a = .ok f ∧ f.count 'g' = matchCount g a := by
  refine ⟨_, eval_guess_eq g a hlen h5, ?_⟩
  rw [pass2L_count_g]
  exact p1list_count_g g a (List.replicate 5 'r') hlen (by simpa using h5)
    (fun r hr => List.eq_of_mem_replicate hr)

/-- **C8** witness. -/
theorem C8_witness :
    ∃ f, eval_guess "sheep".toList "speed".toList = .ok f ∧
      f.count 'g' = matchCount "sheep".toList "speed".toList :=
  C8_hit_count "sheep".toList "speed".toList (by decide) (by decide)

/-- **C10**: on 5-letter inputs the evaluator's feedback uses only the
symbols `g`, `y`, `r`, and therefore never triggers the legality
checker's invalid-symbol branch. -/
theorem C10_valid_symbols (g a w f : List Char) (hg : g.length = 5)
    (ha : a.length = 5) (hw : w.length = 5)
    (he : eval_guess g a = .ok f) :
    (∀ c ∈ f, c = 'g' ∨ c = 'y' ∨ c = 'r') ∧
      is_legal_guess w g f ≠ .error .invalidSymbol := by
  have heq := eval_guess_eq g a (by omega) (by omega)
  have hf : f = (pass2L a (fun c => a.count c) g
      (p1list g a (List.replicate 5 'r')) (fun c => mcount g a c)).1 :=
    Except.ok.inj (he.symm.trans heq)
  have hsym : ∀ c ∈ f, c = 'g' ∨ c = 'y' ∨ c = 'r' := by
    intro c hc
    rw [hf] at hc
    rcases pass2L_mem _ _ _ _ _ c hc with h1 | h1
    · exact Or.inr (Or.inl h1)
    · rcases p1list_mem _ _ _ c h1 with h2 | h2
      · exact Or.inl h2
      · exact Or.inr (Or.inr (List.eq_of_mem_replicate h2))
  refine ⟨hsym, ?_⟩
  have hflen : f.length = 5 := by
    rw [hf, pass2L_length, p1list_length]
    simp
  obtain ⟨b, hb⟩ := legalLoop_total w (fun c => w.count c) g f w
    (fun _ => 0) (by omega) (by omega) hsym
  unfold is_legal_guess
  rw [if_neg (by omega), if_neg (by omega), hb]
  simp

/-- **C10** witness. -/
theorem C10_witness :
    (∀ c ∈ "rryrr".toList, c = 'g' ∨ c = 'y' ∨ c = 'r') ∧
      is_legal_guess "crane".toList "sheep".toList "rryrr".toList ≠
        .error .invalidSymbol :=
  C10_valid_symbols "sheep".toList "abide".toList "crane".toList
    "rryrr".toList (by decide) (by decide) (by decide) (by decide)

/-! ### Self-evaluation and all-HIT characterization (claim C9) -/

theorem p1list_self : ∀ (w rs : List Char), w.length ≤ rs.length →
    p1list w w rs = List.replicate w.length 'g' ++ rs.drop w.length
  | [], rs, _ => by simp [p1list]
  | x :: w, [], h => by simp at h
  | x :: w, r :: rs, h => by
    simp only [List.length_cons] at h
    simp [p1list, p1list_self w rs (by omega), List.replicate_succ]

theorem pass2L_all_g (ans : List Char) (count : Char → Nat) :
    ∀ (gs rs : List Char) (seen : Char → Nat), (∀ r ∈ rs, r = 'g') →
    (pass2L ans count gs rs seen).1 = rs
  | [], rs, seen, _ => rfl
  | _ :: _, [], seen, _ => rfl
  | g :: gs, r :: rs, seen, h => by
    have hr : r = 'g' := h r (by simp)
    have hL : pass2L ans count (g :: gs) (r :: rs) seen =
        (r :: (pass2L ans count gs rs seen).1,
         (pass2L ans count gs rs seen).2) := by
      simp only [pass2L]
      rw [if_neg (by simp [hr])]
    rw [hL]
    simp [pass2L_all_g ans count gs rs seen (fun x hx => h x (by simp [hx]))]

/-- Guessing the answer itself yields the all-HIT feedback. -/
theorem eval_guess_self (w : List Char) (h : w.length = 5) :
    eval_guess w w = .ok (List.replicate 5 'g') := by
  rw [eval_guess_eq w w rfl (by omega)]
  congr 1
  rw [p1list_self w (List.replicate 5 'r') (by simp [h]), h]
  rw [pass2L_all_g]
  · simp
  · intro r hr
    rcases List.mem_append.mp hr with h1 | h1
    · exact List.eq_of_mem_replicate h1
    · exfalso
      rw [List.drop_eq_nil_of_le (by simp [h])] at h1
      cases h1

theorem matchCount_le : ∀ (g a : List Char), matchCount g a ≤ g.length
  | [], _ => by simp [matchCount]
  | _ :: _, [] => by simp [matchCount]
  | g :: gs, a :: as => by
    have := matchCount_le gs as
    simp only [matchCount, List.length_cons]
    by_cases h : g = a <;> simp [h] <;> omega

theorem matchCount_full : ∀ (g a : List Char), g.length = a.length →
    matchCount g a = g.length → g = a
  | [], [], _, _ => rfl
  | [], _ :: _, hlen, _ => by simp at hlen
  | _ :: _, [], hlen, _ => by simp at hlen
  | g :: gs, a :: as, hlen, hm => by
    simp only [List.length_cons] at hlen
    simp only [matchCount, List.length_cons] at hm
    by_cases h : g = a
    · rw [if_pos h] at hm
      rw [h, matchCount_full gs as (by omega) (by omega)]
    · rw [if_neg h] at hm
      have := matchCount_le gs as
      omega

/-- All-HIT feedback characterizes guessing the answer exactly. -/
theorem eval_guess_ggggg_iff (g a : List Char) (hg : g.length = 5)
    (ha : a.length = 5) :
    eval_guess g a = .ok (List.replicate 5 'g') ↔ g = a := by
  constructor
  · intro h
    have heq := eval_guess_eq g a (by omega) (by omega)
    have hfeq := Except.ok.inj (heq.symm.trans h)
    have hcnt : (List.replicate 5 'g').count 'g' = 5 := by decide
    rw [← hfeq] at hcnt
    rw [pass2L_count_g, p1list_count_g g a (List.replicate 5 'r')
      (by omega) (by simp [hg]) (fun r hr => List.eq_of_mem_replicate hr)]
      at hcnt
    exact matchCount_full g a (by omega) (by omega)
  · intro h
    subst h
    exact eval_guess_self g hg

/-! ### Counting helpers for the termination bound -/

theorem length_le_one_of_nodup_all_eq : ∀ (l : List Word) (c : Word),
    l.Nodup → (∀ x ∈ l, x = c) → l.length ≤ 1
  | [], _, _, _ => by simp
  | [x], _, _, _ => by simp
  | x :: y :: l, c, hnd, hall => by
    exfalso
    have hx : x = c := hall x (by simp)
    have hy : y = c := hall y (by simp)
    have := (List.nodup_cons.mp hnd).1
    exact this (by simp [hx, hy])

theorem length_filter_lt_of_not (l : List Word) (p : Word → Bool) (c : Word)
    (hc : c ∈ l) (hp : p c = false) : (l.filter p).length < l.length :=
  List.length_filter_lt_length_iff_exists.mpr ⟨c, hc, by simp [hp]⟩

theorem keyPairLe_fst {x y : Nat × Nat} (h : keyPairLe x y) : x.1 ≤ y.1 := by
  unfold keyPairLe at h
  omega

/-- A non-empty pool of guesses with non-empty partitions always yields a
selection. -/
theorem select_sorted_isOk
    (results : List (Word × List (Feedback × List Word)))
    (hres : results ≠ []) (hne : ∀ p ∈ results, p.2 ≠ []) :
    ∃ t, select_sorted results = .ok t := by
  have hguard : (gcCardinalities results).any (fun t => t.2.isEmpty) = false := by
    rw [List.any_eq_false]
    intro t ht
    simp only [List.isEmpty_iff]
    obtain ⟨p, hp, hpt⟩ := List.mem_map.mp ht
    intro hemp
    apply hne p hp
    rw [← hpt] at hemp
    have hemp2 : get_cardinalities p.2 = [] := hemp
    have hl := get_cardinalities_length p.2
    rw [hemp2] at hl
    exact List.length_eq_zero.mp (by simpa using hl.symm)
  cases hsort : List.insertionSort gcLe (gcCardinalities results) with
  | nil =>
    exfalso
    have hlen := List.length_insertionSort gcLe (gcCardinalities results)
    rw [hsort] at hlen
    have hnil : gcCardinalities results = [] := List.length_eq_zero.mp hlen.symm
    exact hres (List.map_eq_nil_iff.mp hnil)
  | cons t rest =>
    refine ⟨t, ?_⟩
    unfold select_sorted
    rw [hguard]
    rw [if_neg (by simp : ¬false = true)]
    rw [hsort]

/-- Every bucket of a successfully computed partition is the input-order
filter of the answers by its feedback. -/
theorem partition_buckets_filter (g : Word) (answers : List Word)
    (part : List (Feedback × List Word))
    (h : partitionFold g answers [] = .ok part) :
    ∀ p ∈ part, p.2 = answers.filter fun a =>
      decide (eval_guess g a = .ok p.1) := by
  intro p hp
  have hnd := partitionFold_keys_nodup g answers [] part (by simp) h
  have h1 := lookupD_of_mem part p hnd hp
  have h2 := partitionFold_lookupD g answers [] part p.1 h
  rw [h1] at h2
  simpa [lookupD] using h2

/-! ### Termination of the secret-driven loop (claim C9) -/

/-- With no forced guesses, a duplicate-free candidate list containing the
secret and drawn from the all-length-5 guess vocabulary, the secret-driven
round loop solves within fuel `len(legal answers)`: each round either
answers all-HIT or strictly shrinks the candidate list, because the secret
itself sits in the guess pool and its own worst bucket has fewer than
`len(legal answers)` members. -/
theorem run_secret_solves (secret : Word) (hsec : secret.length = 5) :
    ∀ (n : Nat) (s : RoundState), s.forcedGuesses = [] →
    secret ∈ s.legalAnswers → s.legalAnswers.Nodup →
    (∀ w ∈ s.legalAnswers, w ∈ s.legalGuesses) →
    (∀ w ∈ s.legalGuesses, w.length = 5) →
    s.legalAnswers.length ≤ n →
    run_secret secret n s = .ok true
  | 0, s, _, hmem, _, _, _, hcount => by
    exfalso
    have := List.length_pos.mpr (List.ne_nil_of_mem hmem)
    omega
  | n + 1, s, hforced, hmem, hnd, hsub, hlen5, hcount => by
    have hans5 : ∀ a ∈ s.legalAnswers, a.length = 5 :=
      fun a ha => hlen5 a (hsub a ha)
    have hpos : 0 < s.legalAnswers.length :=
      List.length_pos.mpr (List.ne_nil_of_mem hmem)
    by_cases hone : s.legalAnswers.length = 1
    · -- a single candidate left: the pool is that candidate, which is the
      -- secret, so the round answers all-HIT at once
      have haeq : s.legalAnswers = [secret] := by
        obtain ⟨a, ha⟩ := List.length_eq_one.mp hone
        rw [ha] at hmem ⊢
        have : secret = a := by simpa using hmem
        rw [this]
      have hpool : guess_pool s = [secret] := by
        simp only [guess_pool, hforced]
        rw [if_pos hone, haeq]
      have hev : eval_guess secret secret = .ok (List.replicate 5 'g') :=
        eval_guess_self secret hsec
      have hgc : get_candidates (guess_pool s) s.legalAnswers =
          .ok [(secret, [(List.replicate 5 'g', [secret])])] := by
        rw [hpool, haeq]
        simp [get_candidates, mapPartitions, get_hardest_response,
          partitionFold, hev, addToPartition]
      have hsel : select_sorted [(secret, [(List.replicate 5 'g', [secret])])] =
          .ok (secret, [(List.replicate 5 'g', 1)]) := by
        simp [select_sorted, gcCardinalities, get_cardinalities,
          List.insertionSort, List.orderedInsert]
      simp only [run_secret, hgc, hsel, hev]
      simp [lookupD]
    · -- at least two candidates: the pool is the whole guess vocabulary
      have htwo : 2 ≤ s.legalAnswers.length := by omega
      have hpool : guess_pool s = s.legalGuesses := by
        simp only [guess_pool, hforced]
        rw [if_neg hone]
      obtain ⟨gcands, hgc⟩ := mapPartitions_ok s.legalAnswers s.legalGuesses
        (fun g hg => ⟨by have := hlen5 g hg; omega,
          fun a ha => by rw [hans5 a ha, hlen5 g hg]⟩)
      have hgc2 : get_candidates (guess_pool s) s.legalAnswers = .ok gcands := by
        unfold get_candidates
        rw [hpool]
        exact hgc
      obtain ⟨hkeys, hparts⟩ :=
        mapPartitions_spec s.legalAnswers s.legalGuesses gcands hgc
      have hgne : gcands ≠ [] := by
        intro h
        have hsg : secret ∈ s.legalGuesses := hsub secret hmem
        rw [← hkeys, h] at hsg
        simp at hsg
      have hne : ∀ p ∈ gcands, p.2 ≠ [] := by
        intro p hp hemp
        have hj := partitionFold_join p.1 s.legalAnswers [] p.2 (hparts p hp)
        have hlenj := hj.length_eq
        rw [hemp] at hlenj
        simp [bucketsJoin] at hlenj
        omega
      obtain ⟨t, hsel⟩ := select_sorted_isOk gcands hgne hne
      obtain ⟨htmem, htmin, htne⟩ := select_sorted_spec gcands t hsel
      obtain ⟨pt, hptmem, hpteq⟩ := List.mem_map.mp htmem
      have ht1 : t.1 = pt.1 := by rw [← hpteq]
      have ht2 : t.2 = get_cardinalities pt.2 := by rw [← hpteq]
      have ht1g : t.1 ∈ s.legalGuesses := by
        rw [ht1, ← hkeys]
        exact List.mem_map_of_mem _ hptmem
      have ht1len : t.1.length = 5 := hlen5 t.1 ht1g
      obtain ⟨response, hev⟩ : ∃ r, eval_guess t.1 secret = .ok r :=
        ⟨_, eval_guess_eq t.1 secret (by omega) (by omega)⟩
      have hkeymem : t.1 ∈ gcands.map Prod.fst := by
        rw [hkeys]
        exact ht1g
      obtain ⟨gp, hfind, hgp1, hgpmem⟩ := find?_keys gcands t.1 hkeymem
      have hgpfold : partitionFold gp.1 s.legalAnswers [] = .ok gp.2 :=
        hparts gp hgpmem
      have hptfold : partitionFold pt.1 s.legalAnswers [] = .ok pt.2 :=
        hparts pt hptmem
      have hgp2 : gp.2 = pt.2 := by
        have heq2 : partitionFold pt.1 s.legalAnswers [] = .ok gp.2 := by
          rw [← hgpfold, hgp1, ht1]
        rw [heq2] at hptfold
        exact Except.ok.inj hptfold
      have hlk : lookupD gp.2 response = s.legalAnswers.filter
          (fun a => decide (eval_guess gp.1 a = .ok response)) := by
        have hl := partitionFold_lookupD gp.1 s.legalAnswers [] gp.2 response
          hgpfold
        simpa [lookupD] using hl
      have hlk2 : lookupD gp.2 response = s.legalAnswers.filter
          (fun a => decide (eval_guess t.1 a = .ok response)) := by
        rw [hlk, hgp1]
      have hsecmem : secret ∈ lookupD gp.2 response := by
        rw [hlk2, List.mem_filter]
        exact ⟨hmem, by simp [hev]⟩
      have hlkne : lookupD gp.2 response ≠ [] := List.ne_nil_of_mem hsecmem
      have hlkpos : 0 < (lookupD gp.2 response).length :=
        List.length_pos.mpr hlkne
      obtain ⟨c0, cs, hc0⟩ : ∃ c0 cs, t.2 = c0 :: cs := by
        cases h : t.2 with
        | nil => exact absurd h htne
        | cons a b => exact ⟨a, b, rfl⟩
      have hkeyt : sortKey t = (c0.2, c0.1.count 'g') := by
        unfold sortKey
        rw [hc0]
      -- the new candidate list is one bucket of the chosen guess, hence at
      -- most the worst bucket size of the chosen guess
      have hbound1 : (lookupD gp.2 response).length ≤ c0.2 := by
        obtain ⟨q, hqmem, hq1⟩ := lookupD_ne_nil_mem_keys gp.2 response hlkne
        have hndk : (gp.2.map Prod.fst).Nodup :=
          partitionFold_keys_nodup gp.1 s.legalAnswers [] gp.2 (by simp) hgpfold
        have hqlk : lookupD gp.2 q.1 = q.2 := lookupD_of_mem gp.2 q hndk hqmem
        rw [← hq1, hqlk]
        have hcard : get_cardinalities gp.2 = c0 :: cs := by
          rw [hgp2, ← ht2]
          exact hc0
        exact bucket_le_head_card gp.2 c0 cs hcard q hqmem
      -- the secret itself is in the pool and its worst bucket has at most
      -- len(answers) - 1 members, so by minimality so does the chosen one
      obtain ⟨ps, hpsmem, hps1⟩ : ∃ p ∈ gcands, p.1 = secret := by
        have hsg : secret ∈ gcands.map Prod.fst := by
          rw [hkeys]
          exact hsub secret hmem
        obtain ⟨p, hp, hpe⟩ := List.mem_map.mp hsg
        exact ⟨p, hp, hpe⟩
      have hpsfold : partitionFold ps.1 s.legalAnswers [] = .ok ps.2 :=
        hparts ps hpsmem
      have hpsentry : (ps.1, get_cardinalities ps.2) ∈ gcCardinalities gcands :=
        List.mem_map_of_mem _ hpsmem
      have hminps := htmin _ hpsentry
      obtain ⟨d0, ds, hd0⟩ : ∃ d0 ds, get_cardinalities ps.2 = d0 :: ds := by
        cases h : get_cardinalities ps.2 with
        | nil =>
          exfalso
          have hl := get_cardinalities_length ps.2
          rw [h] at hl
          exact hne ps hpsmem (List.length_eq_zero.mp (by simpa using hl.symm))
        | cons a b => exact ⟨a, b, rfl⟩
      have hkeyps : sortKey (ps.1, get_cardinalities ps.2) =
          (d0.2, d0.1.count 'g') := by
        unfold sortKey
        rw [hd0]
      have hd0mem : d0 ∈ get_cardinalities ps.2 := by
        rw [hd0]
        simp
      have hd0mem2 : d0 ∈ ps.2.map (fun p => (p.1, p.2.length)) :=
        (get_cardinalities_perm ps.2).mem_iff.mp hd0mem
      obtain ⟨q2, hq2mem, hq2eq⟩ := List.mem_map.mp hd0mem2
      have hfilters := partition_buckets_filter ps.1 s.legalAnswers ps.2
        hpsfold q2 hq2mem
      have hevsec : eval_guess secret secret = .ok (List.replicate 5 'g') :=
        eval_guess_self secret hsec
      have hq2bound : q2.2.length ≤ s.legalAnswers.length - 1 := by
        by_cases hg5 : q2.1 = List.replicate 5 'g'
        · -- the all-HIT bucket holds the secret alone
          have hall : ∀ x ∈ q2.2, x = secret := by
            intro x hx
            rw [hfilters] at hx
            obtain ⟨hxa, hxe⟩ := List.mem_filter.mp hx
            have hxeval : eval_guess ps.1 x = .ok (List.replicate 5 'g') := by
              rw [← hg5]
              simpa using hxe
            rw [hps1] at hxeval
            exact ((eval_guess_ggggg_iff secret x hsec (hans5 x hxa)).mp
              hxeval).symm
          have hndq : q2.2.Nodup := by
            rw [hfilters]
            exact hnd.filter _
          have := length_le_one_of_nodup_all_eq q2.2 secret hndq hall
          omega
        · -- every other bucket misses the secret
          have hp : decide (eval_guess ps.1 secret = .ok q2.1) = false := by
            simp only [decide_eq_false_iff_not]
            rw [hps1, hevsec]
            intro hh
            exact hg5 (Except.ok.inj hh).symm
          have hlt := length_filter_lt_of_not s.legalAnswers
            (fun a => decide (eval_guess ps.1 a = .ok q2.1)) secret hmem hp
          rw [← hfilters] at hlt
          omega
      have hc02 : c0.2 ≤ d0.2 := by
        rw [hkeyt, hkeyps] at hminps
        exact keyPairLe_fst hminps
      have hd02 : d0.2 = q2.2.length := by rw [← hq2eq]
      have hnewbound : (lookupD gp.2 response).length ≤ n := by omega
      by_cases hg5 : response = ['g', 'g', 'g', 'g', 'g']
      · simp only [run_secret, hgc2, hsel, hev, hfind]
        rw [if_neg (by omega : ¬(lookupD gp.2 response).length < 1),
          if_pos hg5]
      · have hrec := run_secret_solves secret hsec n
          { forcedGuesses := s.forcedGuesses.tail, clues := s.clues,
            legalAnswers := lookupD gp.2 response,
            legalGuesses := s.legalGuesses }
          (by simp [hforced])
          hsecmem
          (by rw [hlk2]; exact hnd.filter _)
          (by
            intro w hw
            rw [hlk2] at hw
            exact hsub w (List.mem_filter.mp hw).1)
          hlen5
          hnewbound
        simp only [run_secret, hgc2, hsel, hev, hfind]
        rw [if_neg (by omega : ¬(lookupD gp.2 response).length < 1),
          if_neg hg5]
        exact hrec

/-- C9, counterexample: the claim quantifies over every non-empty answer
list with the secret among the answers, but says nothing about the guess
vocabulary. With answers {"aaaaa", "bbbbb"}, secret "aaaaa" and guess
vocabulary {"zzzzz"}, every round's feedback is MISS-only for both
candidates, nothing is eliminated, and the run is still unsolved after
`len(answers) = 2` rounds — so the loop does not reach SOLVED within
`len(candidate answers)` rounds as claimed. -/
theorem C9_counterexample :
    ['a', 'a', 'a', 'a', 'a'] ∈ C9cexState.legalAnswers ∧
      C9cexState.legalAnswers.length = 2 ∧
      run_secret ['a', 'a', 'a', 'a', 'a'] 2 C9cexState = .ok false := by
  refine ⟨by decide, by decide, ?_⟩
  decide

/-- C9 (amended): when there are no forced guesses, the candidate answers
are duplicate-free, all drawn from the guess vocabulary, every vocabulary
word has the reference length 5, and the secret is one of the candidate
answers, the round loop driven by `evaluate(chosen guess, secret)` reaches
SOLVED (all-HIT feedback) within at most `len(candidate answers)` rounds. -/
theorem C9_termination (s : RoundState) (secret : Word)
    (hforced : s.forcedGuesses = []) (hsec : secret.length = 5)
    (hmem : secret ∈ s.legalAnswers) (hnd : s.legalAnswers.Nodup)
    (hsub : ∀ w ∈ s.legalAnswers, w ∈ s.legalGuesses)
    (hlen5 : ∀ w ∈ s.legalGuesses, w.length = 5) :
    run_secret secret s.legalAnswers.length s = .ok true :=
  run_secret_solves secret hsec s.legalAnswers.length s hforced hmem hnd
    hsub hlen5 (Nat.le_refl _)

/-- C9, witness: on answers {"aaaaa", "bbbbb"} that are also legal guesses,
the secret-driven run for secret "bbbbb" solves within 2 rounds. -/
theorem C9_witness :
    run_secret ['b', 'b', 'b', 'b', 'b'] W9state.legalAnswers.length W9state
      = .ok true :=
  C9_termination W9state ['b', 'b', 'b', 'b', 'b'] rfl (by decide) (by decide)
    (by decide) (by decide) (by decide)

end WordleMinimax
